import Mathlib

/-!
Verification development for the core of a Git repository visualization engine
(parser, graph traversal, lane-assignment layout, layout queries, lane optimizer).

The TypeScript sources are shallowly embedded: JavaScript strings become
`List Char` (parser section) or `String` (graph/layout section), JavaScript
`Map` (which preserves insertion order) becomes the association-list `JsMap`
below, JavaScript numbers used as rows/lanes become `Int`, and fallible
parsing returns `Except`/`Option`.
-/

set_option maxHeartbeats 1000000
set_option linter.unusedSectionVars false
set_option linter.unnecessarySimpa false
set_option linter.unusedVariables false
set_option linter.unusedTactic false

namespace RepoLens

/-! ### JsMap: insertion-ordered map modelling JavaScript `Map` -/

/-- Association list with JavaScript `Map` semantics: `set` on an existing key
replaces the value in place (keeping the original position), `set` on a fresh
key appends, `delete` removes the entry, and `keys` lists keys in insertion
order. -/
structure JsMap (κ α : Type) where
  entries : List (κ × α)
deriving DecidableEq, Repr

namespace JsMap

variable {κ α : Type} [DecidableEq κ]

/-- Lookup in a raw entry list (first match wins, as in `Map.get`). -/
def lookupL (l : List (κ × α)) (k : κ) : Option α :=
  (l.find? (fun e => decide (e.1 = k))).map (·.2)

def empty : JsMap κ α := ⟨[]⟩

def get (m : JsMap κ α) (k : κ) : Option α := lookupL m.entries k

def has (m : JsMap κ α) (k : κ) : Bool :=
  m.entries.any (fun e => decide (e.1 = k))

def set (m : JsMap κ α) (k : κ) (v : α) : JsMap κ α :=
  if m.has k then
    ⟨m.entries.map (fun e => if e.1 = k then (k, v) else e)⟩
  else
    ⟨m.entries ++ [(k, v)]⟩

def delete (m : JsMap κ α) (k : κ) : JsMap κ α :=
  ⟨m.entries.filter (fun e => !decide (e.1 = k))⟩

def keys (m : JsMap κ α) : List κ :=
  m.entries.map (·.1)

def getD (m : JsMap κ α) (k : κ) (d : α) : α :=
  (m.get k).getD d

/-- Keys are pairwise distinct.  Holds for every map built from `empty` by
`set` and `delete`. -/
def NodupKeys (m : JsMap κ α) : Prop := m.keys.Nodup

@[simp] theorem lookupL_nil (k : κ) : lookupL ([] : List (κ × α)) k = none := rfl

theorem lookupL_cons (e : κ × α) (l : List (κ × α)) (k : κ) :
    lookupL (e :: l) k = if e.1 = k then some e.2 else lookupL l k := by
  by_cases h : e.1 = k <;> simp [lookupL, List.find?, h]

@[simp] theorem get_empty (k : κ) : (empty : JsMap κ α).get k = none := rfl

@[simp] theorem keys_empty : (empty : JsMap κ α).keys = [] := rfl

theorem nodupKeys_empty : (empty : JsMap κ α).NodupKeys := List.nodup_nil

theorem lookupL_eq_none_iff (l : List (κ × α)) (k : κ) :
    lookupL l k = none ↔ ∀ e ∈ l, e.1 ≠ k := by
  induction l with
  | nil => simp
  | cons e l ih =>
    rw [lookupL_cons]
    by_cases h : e.1 = k <;> simp [h, ih]

theorem lookupL_append_single_self (l : List (κ × α)) (k : κ) (v : α)
    (h : ∀ e ∈ l, e.1 ≠ k) : lookupL (l ++ [(k, v)]) k = some v := by
  induction l with
  | nil => simp [lookupL_cons]
  | cons e l ih =>
    rw [List.cons_append, lookupL_cons]
    have he := h e (List.mem_cons_self _ _)
    simp only [he, if_false]
    exact ih (fun e' he' => h e' (List.mem_cons_of_mem _ he'))

theorem lookupL_append_single_ne (l : List (κ × α)) (k k' : κ) (v : α)
    (h : k' ≠ k) : lookupL (l ++ [(k, v)]) k' = lookupL l k' := by
  induction l with
  | nil =>
    rw [List.nil_append, lookupL_cons]
    have h1 : ¬ ((k, v).1 = k') := fun hc => h (by simpa using hc.symm)
    rw [if_neg h1]
  | cons e l ih =>
    rw [List.cons_append, lookupL_cons, lookupL_cons]
    by_cases hek : e.1 = k' <;> simp [hek, ih]

theorem lookupL_mapReplace_self (l : List (κ × α)) (k : κ) (v : α)
    (h : ∃ e ∈ l, e.1 = k) :
    lookupL (l.map (fun e => if e.1 = k then (k, v) else e)) k = some v := by
  induction l with
  | nil => simp at h
  | cons e l ih =>
    rw [List.map_cons]
    by_cases hek : e.1 = k
    · simp [hek, lookupL_cons]
    · rw [if_neg hek, lookupL_cons, if_neg hek]
      rcases h with ⟨e', he', hek'⟩
      rcases List.mem_cons.mp he' with rfl | he'
      · exact absurd hek' hek
      · exact ih ⟨e', he', hek'⟩

theorem lookupL_mapReplace_ne (l : List (κ × α)) (k k' : κ) (v : α)
    (h : k' ≠ k) :
    lookupL (l.map (fun e => if e.1 = k then (k, v) else e)) k' =
      lookupL l k' := by
  induction l with
  | nil => simp
  | cons e l ih =>
    rw [List.map_cons]
    by_cases hek : e.1 = k
    · rw [if_pos hek, lookupL_cons, lookupL_cons]
      have h1 : ¬ ((k, v).1 = k') := fun hc => h (by simpa using hc.symm)
      have h2 : ¬ (e.1 = k') := fun hc => h (hc.symm.trans hek)
      rw [if_neg h1, if_neg h2]
      exact ih
    · rw [if_neg hek, lookupL_cons, lookupL_cons]
      by_cases hek' : e.1 = k' <;> simp [hek', ih]

theorem lookupL_filterOut_self (l : List (κ × α)) (k : κ) :
    lookupL (l.filter (fun e => !decide (e.1 = k))) k = none := by
  rw [lookupL_eq_none_iff]
  intro e he
  have := List.of_mem_filter he
  simpa using this

theorem lookupL_filterOut_ne (l : List (κ × α)) (k k' : κ) (h : k' ≠ k) :
    lookupL (l.filter (fun e => !decide (e.1 = k))) k' = lookupL l k' := by
  induction l with
  | nil => simp
  | cons e l ih =>
    by_cases hek : e.1 = k
    · rw [List.filter_cons]
      have hf : (!decide (e.1 = k)) = false := by simp [hek]
      rw [hf]
      simp only [Bool.false_eq_true, if_false]
      rw [lookupL_cons, if_neg (fun hc => h (hc.symm.trans hek))]
      exact ih
    · rw [List.filter_cons]
      have ht : (!decide (e.1 = k)) = true := by simp [hek]
      rw [ht]
      simp only [if_true]
      rw [lookupL_cons, lookupL_cons]
      by_cases hek' : e.1 = k' <;> simp [hek', ih]

theorem has_iff_exists (m : JsMap κ α) (k : κ) :
    m.has k = true ↔ ∃ e ∈ m.entries, e.1 = k := by
  unfold has
  rw [List.any_eq_true]
  constructor
  · rintro ⟨e, he, hk⟩; exact ⟨e, he, by simpa using hk⟩
  · rintro ⟨e, he, hk⟩; exact ⟨e, he, by simpa using hk⟩

theorem get_set_self (m : JsMap κ α) (k : κ) (v : α) :
    (m.set k v).get k = some v := by
  unfold set get
  by_cases h : m.has k = true
  · rw [if_pos h]
    exact lookupL_mapReplace_self _ _ _ ((has_iff_exists m k).mp h)
  · rw [if_neg h]
    refine lookupL_append_single_self _ _ _ (fun e he hk => ?_)
    exact h ((has_iff_exists m k).mpr ⟨e, he, hk⟩)

theorem get_set_ne (m : JsMap κ α) (k k' : κ) (v : α) (h : k' ≠ k) :
    (m.set k v).get k' = m.get k' := by
  unfold set get
  by_cases hh : m.has k = true
  · rw [if_pos hh]; exact lookupL_mapReplace_ne _ _ _ _ h
  · rw [if_neg hh]; exact lookupL_append_single_ne _ _ _ _ h

theorem get_delete_self (m : JsMap κ α) (k : κ) :
    (m.delete k).get k = none :=
  lookupL_filterOut_self _ _

theorem get_delete_ne (m : JsMap κ α) (k k' : κ) (h : k' ≠ k) :
    (m.delete k).get k' = m.get k' :=
  lookupL_filterOut_ne _ _ _ h

theorem keys_set_of_has (m : JsMap κ α) (k : κ) (v : α) (h : m.has k = true) :
    (m.set k v).keys = m.keys := by
  unfold set keys
  rw [if_pos h]
  simp only [List.map_map]
  apply List.map_congr_left
  intro e _
  by_cases hek : e.1 = k
  · simp [hek]
  · simp [hek]

theorem keys_set_of_not_has (m : JsMap κ α) (k : κ) (v : α)
    (h : ¬ m.has k = true) : (m.set k v).keys = m.keys ++ [k] := by
  unfold set keys
  rw [if_neg h]
  simp

theorem not_mem_keys_of_not_has (m : JsMap κ α) (k : κ) (h : ¬ m.has k = true) :
    k ∉ m.keys := by
  intro hk
  rcases List.mem_map.mp hk with ⟨e, he, hek⟩
  exact h ((has_iff_exists m k).mpr ⟨e, he, hek⟩)

theorem nodupKeys_set (m : JsMap κ α) (k : κ) (v : α) (h : m.NodupKeys) :
    (m.set k v).NodupKeys := by
  unfold NodupKeys at *
  by_cases hh : m.has k = true
  · rw [keys_set_of_has m k v hh]; exact h
  · rw [keys_set_of_not_has m k v hh]
    simpa [List.nodup_append] using ⟨h, not_mem_keys_of_not_has m k hh⟩

theorem keys_delete_sublist (m : JsMap κ α) (k : κ) :
    (m.delete k).keys.Sublist m.keys :=
  List.Sublist.map _ (List.filter_sublist _)

theorem nodupKeys_delete (m : JsMap κ α) (k : κ) (h : m.NodupKeys) :
    (m.delete k).NodupKeys :=
  List.Nodup.sublist (keys_delete_sublist m k) h

theorem mem_keys_set_self (m : JsMap κ α) (k : κ) (v : α) :
    k ∈ (m.set k v).keys := by
  by_cases hh : m.has k = true
  · rw [keys_set_of_has m k v hh]
    rcases (has_iff_exists m k).mp hh with ⟨e, he, hek⟩
    exact List.mem_map.mpr ⟨e, he, hek⟩
  · rw [keys_set_of_not_has m k v hh]
    simp

theorem not_mem_keys_delete_self (m : JsMap κ α) (k : κ) :
    k ∉ (m.delete k).keys := by
  intro hk
  rcases List.mem_map.mp hk with ⟨e, he, hek⟩
  have := List.of_mem_filter he
  simp [hek] at this

theorem mem_keys_delete (m : JsMap κ α) (k k' : κ) (h : k' ∈ (m.delete k).keys) :
    k' ∈ m.keys := by
  rcases List.mem_map.mp h with ⟨e, he, hek⟩
  exact List.mem_map.mpr ⟨e, List.mem_of_mem_filter he, hek⟩

theorem mem_keys_delete_of_ne (m : JsMap κ α) (k k' : κ) (hne : k' ≠ k)
    (h : k' ∈ m.keys) : k' ∈ (m.delete k).keys := by
  rcases List.mem_map.mp h with ⟨e, he, hek⟩
  refine List.mem_map.mpr ⟨e, List.mem_filter.mpr ⟨he, ?_⟩, hek⟩
  simpa [hek]

theorem mem_keys_set (m : JsMap κ α) (k k' : κ) (v : α)
    (h : k' ∈ (m.set k v).keys) : k' ∈ m.keys ∨ k' = k := by
  by_cases hh : m.has k = true
  · rw [keys_set_of_has m k v hh] at h; exact Or.inl h
  · rw [keys_set_of_not_has m k v hh] at h
    rcases List.mem_append.mp h with h | h
    · exact Or.inl h
    · exact Or.inr (List.mem_singleton.mp h)

theorem get_eq_some_mem_entries (m : JsMap κ α) (k : κ) (v : α)
    (h : m.get k = some v) : (k, v) ∈ m.entries := by
  unfold get lookupL at h
  rcases Option.map_eq_some'.mp h with ⟨e, hfind, hev⟩
  have hmem := List.mem_of_find?_eq_some hfind
  have hek : e.1 = k := by
    have := List.find?_some hfind
    simpa using this
  have : e = (k, v) := by
    cases e
    simp_all
  exact this ▸ hmem

theorem mem_keys_of_get_eq_some (m : JsMap κ α) (k : κ) (v : α)
    (h : m.get k = some v) : k ∈ m.keys :=
  List.mem_map.mpr ⟨(k, v), get_eq_some_mem_entries m k v h, rfl⟩

theorem lookupL_isSome_of_mem (l : List (κ × α)) (e : κ × α) (k : κ)
    (he : e ∈ l) (hek : e.1 = k) : (lookupL l k).isSome = true := by
  induction l with
  | nil => simp at he
  | cons e' l ih =>
    rw [lookupL_cons]
    rcases List.mem_cons.mp he with rfl | he'
    · simp [hek]
    · by_cases h' : e'.1 = k
      · simp [h']
      · rw [if_neg h']
        exact ih he'

theorem get_isSome_of_mem_keys (m : JsMap κ α) (k : κ) (h : k ∈ m.keys) :
    (m.get k).isSome = true := by
  rcases List.mem_map.mp h with ⟨e, he, hek⟩
  exact lookupL_isSome_of_mem m.entries e k he hek

end JsMap
/-! ### Parser: embedding of `parser.ts` (commit log parsing)

JavaScript strings are modelled as `List Char`.  `String.prototype.trim`,
`split`, `substring` and `toLowerCase` become the list functions below.
-/

/-- Field separator in git log format (NULL byte). -/
def FIELD_SEPARATOR : Char := Char.ofNat 0

/-- Record separator in git log format. -/
def RECORD_SEPARATOR : Char := Char.ofNat 1

/-- Expected number of fields per commit record. -/
def EXPECTED_FIELDS : Nat := 10

/-- Models `String.prototype.trim` (whitespace stripped from both ends; we use
Lean's `Char.isWhitespace`, which covers the ASCII whitespace relevant here). -/
def jsTrim (s : List Char) : List Char :=
  ((s.dropWhile Char.isWhitespace).reverse.dropWhile Char.isWhitespace).reverse

/-- Models `str.split(sep)` for a single-character separator: splits at every
occurrence, keeping empty pieces (`"".split(sep)` gives `[""]`). -/
def splitOnChar (sep : Char) : List Char → List (List Char)
  | [] => [[]]
  | c :: rest =>
    let r := splitOnChar sep rest
    if c = sep then [] :: r
    else
      match r with
      | [] => [[c]]
      | h :: t => (c :: h) :: t

/-- Models `arr.join(sep)` for a single-character separator. -/
def joinSep (sep : Char) (parts : List (List Char)) : List Char :=
  List.intercalate [sep] parts

theorem dropWhile_length_le (p : Char → Bool) (l : List Char) :
    (l.dropWhile p).length ≤ l.length := by
  induction l with
  | nil => simp
  | cons c l ih =>
    rw [List.dropWhile_cons]
    by_cases h : p c
    · simp only [h, if_true]
      simp only [List.length_cons]
      omega
    · simp [h]

/-- Models `str.split(/\s+/)`: splits on maximal whitespace runs (a leading
run produces a leading empty piece, as in JavaScript). -/
def splitWSAux : List Char → List Char → List (List Char)
  | [], acc => [acc.reverse]
  | c :: rest, acc =>
    if c.isWhitespace then
      acc.reverse :: splitWSAux (rest.dropWhile Char.isWhitespace) []
    else
      splitWSAux rest (c :: acc)
termination_by s _ => s.length
decreasing_by
  · have := dropWhile_length_le Char.isWhitespace rest
    simp only [List.length_cons]
    omega
  · simp only [List.length_cons]
    omega

def splitWS (s : List Char) : List (List Char) := splitWSAux s []

/-- Models `str.toLowerCase()` (ASCII case folding suffices for hex hashes). -/
def toLowerL (s : List Char) : List Char := s.map Char.toLower

/-- `isValidHash` from `parser.ts`: `/^[a-f0-9]{40}$/i.test(value)`.  The `i`
flag makes the test case-insensitive, so uppercase hex digits are accepted. -/
def isValidHash (s : List Char) : Bool :=
  s.length = 40 && s.all (fun c =>
    ('0' ≤ c && c ≤ '9') || ('a' ≤ c && c ≤ 'f') || ('A' ≤ c && c ≤ 'F'))

/-- The validity predicate the specification describes instead: exactly 40
LOWERCASE hex characters (no uppercase). -/
def specIsLowerHash (s : List Char) : Bool :=
  s.length = 40 && s.all (fun c =>
    ('0' ≤ c && c ≤ '9') || ('a' ≤ c && c ≤ 'f'))

/-- `unsafeCommitHash` from `types.ts`: `value.trim().toLowerCase()`. -/
def unsafeCommitHash (value : List Char) : List Char :=
  toLowerL (jsTrim value)

/-- Zone suffix of an ISO 8601 date-time (`Z` or `±hh:mm`), or nothing. -/
def isIsoZoneOpt : List Char → Bool
  | [] => true
  | ['Z'] => true
  | [z, h1, h2, ':', m1, m2] =>
    (z = '+' || z = '-') && [h1, h2, m1, m2].all Char.isDigit
  | _ => false

/-- Time part of an ISO 8601 date-time (`Thh:mm:ss` + optional zone), or
nothing. -/
def isIsoTimeOpt : List Char → Bool
  | [] => true
  | 'T' :: h1 :: h2 :: ':' :: n1 :: n2 :: ':' :: s1 :: s2 :: rest =>
    [h1, h2, n1, n2, s1, s2].all Char.isDigit && isIsoZoneOpt rest
  | _ => false

/-- Recognizer for the ISO 8601 date-time strings produced by git's
`%aI`/`%cI` format (`YYYY-MM-DD` with optional time and zone). -/
def isIsoDateLike : List Char → Bool
  | y1 :: y2 :: y3 :: y4 :: '-' :: m1 :: m2 :: '-' :: d1 :: d2 :: rest =>
    [y1, y2, y3, y4, m1, m2, d1, d2].all Char.isDigit && isIsoTimeOpt rest
  | _ => false

/-- `parseDate` from `parser.ts`.  The source builds a JavaScript `Date` via
`new Date(trimmed)` and rejects it when `getTime()` is `NaN`; we model the
`Date` value by the trimmed input text and its validity by the ISO 8601
recognizer above (git only ever emits ISO strings here, and no claim depends
on the exact extent of JavaScript's date grammar). -/
def parseDate (raw : List Char) : Option (List Char) :=
  let trimmed := jsTrim raw
  if trimmed = [] then none
  else if isIsoDateLike trimmed then some trimmed
  else none

/-- `parseParentHashes` from `parser.ts`. -/
def parseParentHashes (raw : List Char) : List (List Char) :=
  let trimmed := jsTrim raw
  if trimmed = [] then []
  else
    (((splitWS trimmed).filter (fun h => h.length > 0)).filter
        (fun h => isValidHash h)).map
      (fun h => unsafeCommitHash (toLowerL h))

structure GitIdentity where
  name : List Char
  email : List Char
deriving DecidableEq, Repr

structure Commit where
  hash : List Char
  parents : List (List Char)
  author : GitIdentity
  committer : GitIdentity
  authoredAt : List Char
  committedAt : List Char
  subject : List Char
  body : List Char
deriving DecidableEq, Repr

inductive ParseErrorType
  | malformed_record
  | invalid_hash
  | invalid_date
deriving DecidableEq, Repr

structure ParseError where
  type : ParseErrorType
  message : List Char
  record : Option (List Char) := none
  field : Option (List Char) := none
deriving DecidableEq, Repr

structure ParseCommitsResult where
  commits : List Commit
  errors : List ParseError
deriving DecidableEq, Repr

/-- Error produced by `parseCommitRecord` for a record with too few fields. -/
def mkMalformedError (nFields : Nat) (record : List Char) : ParseError :=
  { type := .malformed_record
    message := ("Expected at least ".data) ++ (Nat.repr (EXPECTED_FIELDS - 1)).data
      ++ (" fields, got ".data) ++ (Nat.repr nFields).data
    record := some (record.take 100) }

/-- Error produced by `parseCommitRecord` for an invalid hash field. -/
def mkInvalidHashError (hash record : List Char) : ParseError :=
  { type := .invalid_hash
    message := ("Invalid commit hash: ".data) ++ hash
    field := some ("hash".data)
    record := some (record.take 100) }

/-- Error produced by `parseCommitRecord` for an invalid date field. -/
def mkInvalidDateError (which dateRaw record : List Char) : ParseError :=
  { type := .invalid_date
    message := ("Invalid date: ".data) ++ dateRaw
    field := some which
    record := some (record.take 100) }

/-- The fields of a record: `record.split(FIELD_SEPARATOR)`. -/
def fieldsOf (record : List Char) : List (List Char) :=
  splitOnChar FIELD_SEPARATOR record

/-- The trimmed hash field of a record (`fields[0]?.trim()`). -/
def hashFieldOf (record : List Char) : List Char :=
  jsTrim ((fieldsOf record).getD 0 [])

/-- `parseCommitRecord` from `parser.ts`: split on the field separator,
require at least 9 fields, validate the (trimmed) hash, parse parents and
both dates, and assemble the commit. -/
def parseCommitRecord (record : List Char) : Except ParseError Commit :=
  if (fieldsOf record).length < EXPECTED_FIELDS - 1 then
    .error (mkMalformedError (fieldsOf record).length record)
  else if (hashFieldOf record).isEmpty || !isValidHash (hashFieldOf record) then
    .error (mkInvalidHashError (hashFieldOf record) record)
  else
    match parseDate ((fieldsOf record).getD 4 []) with
    | none =>
      .error (mkInvalidDateError ("authoredAt".data) ((fieldsOf record).getD 4 []) record)
    | some authoredAt =>
      match parseDate ((fieldsOf record).getD 7 []) with
      | none =>
        .error (mkInvalidDateError ("committedAt".data) ((fieldsOf record).getD 7 []) record)
      | some committedAt =>
        .ok
          { hash := unsafeCommitHash (hashFieldOf record)
            parents := parseParentHashes ((fieldsOf record).getD 1 [])
            author := { name := (fieldsOf record).getD 2 []
                        email := (fieldsOf record).getD 3 [] }
            committer := { name := (fieldsOf record).getD 5 []
                           email := (fieldsOf record).getD 6 [] }
            authoredAt
            committedAt
            subject := (fieldsOf record).getD 8 []
            body := jsTrim (joinSep FIELD_SEPARATOR ((fieldsOf record).drop 9)) }

/-- The non-blank records of raw log output
(`raw.split(RECORD_SEPARATOR).filter(r => r.trim().length > 0)`). -/
def recordsOf (raw : List Char) : List (List Char) :=
  (splitOnChar RECORD_SEPARATOR raw).filter (fun r => !(jsTrim r).isEmpty)

/-- The loop body of `parseCommits`: push the commit on success, push the
error on failure. -/
def parseStep (acc : ParseCommitsResult) (record : List Char) :
    ParseCommitsResult :=
  match parseCommitRecord record with
  | .ok c => { acc with commits := acc.commits ++ [c] }
  | .error e => { acc with errors := acc.errors ++ [e] }

/-- `parseCommits` from `parser.ts`: blank input short-circuits to an empty
result; otherwise split on the record separator, drop blank records, and
accumulate per-record successes and errors. -/
def parseCommits (raw : List Char) : ParseCommitsResult :=
  if jsTrim raw = [] then { commits := [], errors := [] }
  else (recordsOf raw).foldl parseStep { commits := [], errors := [] }

/-- The commit a record contributes, if it parses. -/
def recordCommit? (record : List Char) : Option Commit :=
  match parseCommitRecord record with
  | .ok c => some c
  | .error _ => none

/-- The error a record contributes, if it fails to parse. -/
def recordError? (record : List Char) : Option ParseError :=
  match parseCommitRecord record with
  | .ok _ => none
  | .error e => some e

/-- Whether `parseCommitRecord` accepts a record. -/
def recordAccepted (record : List Char) : Bool :=
  match parseCommitRecord record with
  | .ok _ => true
  | .error _ => false

/-! ### Theorems for claims C1 and C10 (parser) -/

/-- Decomposition of the `parseCommits` fold: the accumulated result is the
accumulator extended with each record's contribution, in order. -/
theorem parseCommits_foldl (records : List (List Char))
    (acc : ParseCommitsResult) :
    records.foldl parseStep acc =
      { commits := acc.commits ++ records.filterMap recordCommit?
        errors := acc.errors ++ records.filterMap recordError? } := by
  induction records generalizing acc with
  | nil => simp
  | cons r rs ih =>
    rw [List.foldl_cons, ih]
    cases h : parseCommitRecord r with
    | ok c =>
      simp [parseStep, h, recordCommit?, recordError?]
    | error e =>
      simp [parseStep, h, recordCommit?, recordError?]

/-- A sample well-formed commit record with the given hash field (all other
fields valid). -/
def sampleRecord (hash : List Char) : List Char :=
  joinSep FIELD_SEPARATOR [hash, [], "Alice".data, "alice@example.com".data,
    "2024-01-15T10:30:00Z".data, "Alice".data, "alice@example.com".data,
    "2024-01-15T10:30:00Z".data, "Test".data, []]

/-- A record whose hash field is 40 UPPERCASE hex characters. -/
def upperHashRecord : List Char := sampleRecord (List.replicate 40 'A')

/-- C1, counterexample: the claim says a record is accepted only when its hash
field is 40 LOWERCASE hex characters, and that every record whose hash field
is not of that shape yields an `invalid_hash` error.  Both parts fail on the
code: a record whose hash is 40 uppercase hex characters is accepted (the
validation regex carries the case-insensitive `i` flag), and a record with too
few fields yields a `malformed_record` error, not `invalid_hash`. -/
theorem c1_hash_lowercase_counterexample :
    recordAccepted upperHashRecord = true ∧
    specIsLowerHash (hashFieldOf upperHashRecord) = false ∧
    (recordError? ("not enough fields".data)).map (fun e => e.type) =
      some ParseErrorType.malformed_record ∧
    specIsLowerHash (hashFieldOf ("not enough fields".data)) = false := by
  refine ⟨by decide, by decide, by decide, by decide⟩

/-- C1 (amended): a record is accepted only when its trimmed hash field is a
40-character hexadecimal string (upper- or lowercase digits, per the
case-insensitive validation regex); every record that splits into at least 9
fields and whose trimmed hash field fails that validation produces exactly the
`invalid_hash` error and nothing else; and on non-blank input `parseCommits`
processes records independently, collecting each record's commit or single
error in order, so an invalid record is skipped while parsing continues. -/
theorem c1_hash_validation :
    (∀ record : List Char,
      (∀ c, parseCommitRecord record = .ok c →
        isValidHash (hashFieldOf record) = true) ∧
      (EXPECTED_FIELDS - 1 ≤ (fieldsOf record).length →
        isValidHash (hashFieldOf record) = false →
        parseCommitRecord record =
          .error (mkInvalidHashError (hashFieldOf record) record))) ∧
    (∀ raw : List Char, jsTrim raw ≠ [] →
      parseCommits raw =
        { commits := (recordsOf raw).filterMap recordCommit?
          errors := (recordsOf raw).filterMap recordError? }) := by
  constructor
  · intro record
    constructor
    · intro c hok
      unfold parseCommitRecord at hok
      by_cases h1 : (fieldsOf record).length < EXPECTED_FIELDS - 1
      · rw [if_pos h1] at hok
        exact absurd hok (by simp)
      · rw [if_neg h1] at hok
        by_cases h2 :
            ((hashFieldOf record).isEmpty || !isValidHash (hashFieldOf record)) = true
        · rw [if_pos h2] at hok
          exact absurd hok (by simp)
        · simp only [Bool.or_eq_true, Bool.not_eq_true'] at h2
          push_neg at h2
          have := h2.2
          simpa using this
    · intro hlen hinv
      unfold parseCommitRecord
      rw [if_neg (by omega)]
      rw [if_pos (by simp [hinv])]
  · intro raw hraw
    unfold parseCommits
    rw [if_neg hraw]
    rw [parseCommits_foldl]
    simp

/-- Witness for `c1_hash_validation` at a concrete bad-hash record and a
concrete non-blank input. -/
theorem c1_hash_validation_witness :
    parseCommitRecord (sampleRecord ("zzz".data)) =
      .error (mkInvalidHashError (hashFieldOf (sampleRecord ("zzz".data)))
        (sampleRecord ("zzz".data))) ∧
    parseCommits ("x".data) =
      { commits := (recordsOf ("x".data)).filterMap recordCommit?
        errors := (recordsOf ("x".data)).filterMap recordError? } :=
  ⟨(c1_hash_validation.1 (sampleRecord ("zzz".data))).2 (by decide) (by decide),
    c1_hash_validation.2 ("x".data) (by decide)⟩

/-- C10: for every input that is empty or consists only of whitespace,
`parseCommits` returns zero commits and zero errors (no `malformed_record`
error for blank input). -/
theorem c10_blank_input (s : List Char)
    (h : s = [] ∨ ∀ c ∈ s, c.isWhitespace = true) :
    parseCommits s = { commits := [], errors := [] } := by
  have ht : jsTrim s = [] := by
    rcases h with rfl | h
    · rfl
    · unfold jsTrim
      have h1 : s.dropWhile Char.isWhitespace = [] := by
        rw [List.dropWhile_eq_nil_iff]
        exact h
      rw [h1]
      simp
  unfold parseCommits
  rw [if_pos ht]

/-- Witness for `c10_blank_input` on a concrete whitespace-only input. -/
theorem c10_blank_input_witness :
    parseCommits (' ' :: '\n' :: '\t' :: []) = { commits := [], errors := [] } :=
  c10_blank_input _ (Or.inr (by decide))

/-! ### Protected-branch glob matching (`matchGlob` / `matchesProtectedPattern`)

The source builds a JavaScript regex from the pattern:
`pattern.replace(/[.+^${}()|[\]\\]/g, '\\$&').replace(/\*/g, '.*')`, anchored
with `^...$`.  Every character except `*` and `?` is thereby taken literally;
`*` becomes `.*`; `?` is NOT in the escape class, so it remains a regex
optional-quantifier applying to the preceding atom.  We compile the pattern to
the atoms the constructed regex consists of and run a standard matcher. -/

/-- One atom of the regex constructed by `matchGlob`. -/
inductive RAtom
  | lit (c : Char)
  | anyStar
  | optLit (c : Char)
deriving DecidableEq, Repr

/-- Compile a glob pattern into regex atoms, mirroring the `replace` chain: a
`*` yields `.*`; a `?` makes the preceding atom optional (on `.*` or an
already-optional atom it yields a lazy quantifier, which accepts the same
language, so the atom is unchanged); any other character is a literal.  A
leading `?` has no atom to quantify: the JavaScript `RegExp` constructor would
throw there, modelled as `none`. -/
def compileGlobAux : List Char → List RAtom → Option (List RAtom)
  | [], acc => some acc.reverse
  | c :: rest, acc =>
    if c = '*' then compileGlobAux rest (RAtom.anyStar :: acc)
    else if c = '?' then
      match acc with
      | [] => none
      | a :: as =>
        match a with
        | RAtom.lit ch => compileGlobAux rest (RAtom.optLit ch :: as)
        | RAtom.anyStar => compileGlobAux rest (RAtom.anyStar :: as)
        | RAtom.optLit ch => compileGlobAux rest (RAtom.optLit ch :: as)
    else compileGlobAux rest (RAtom.lit c :: acc)

def compileGlob (pattern : List Char) : Option (List RAtom) :=
  compileGlobAux pattern []

/-- Anchored matcher for the compiled atoms (Boolean acceptance of the
constructed `^...$` regex): a literal consumes one matching character, an
optional literal may consume it, and `.*` consumes any prefix — equivalently,
the rest of the regex must match some suffix of the input. -/
def ratomMatch : List RAtom → List Char → Bool
  | [], s => s.isEmpty
  | RAtom.lit c :: ps, s =>
    match s with
    | c' :: s' => c = c' && ratomMatch ps s'
    | [] => false
  | RAtom.optLit c :: ps, s =>
    (match s with
     | c' :: s' => c = c' && ratomMatch ps s'
     | [] => false) || ratomMatch ps s
  | RAtom.anyStar :: ps, s => s.tails.any (fun t => ratomMatch ps t)

/-- `matchGlob` from `parser.ts`: exact match, else test the constructed
regex.  (For a pattern starting with `?` the source would throw while
constructing the regex; that case is modelled as `false` and is excluded by
every claim that reaches this function.) -/
def matchGlob (value pattern : List Char) : Bool :=
  if pattern = value then true
  else
    match compileGlob pattern with
    | some atoms => ratomMatch atoms value
    | none => false

/-- `matchesProtectedPattern`: a name is protected iff some pattern matches
it.  (`parser.ts` loops over `matchGlob`; `visualization.ts` carries an
inlined copy with the same exact-match shortcut and regex, so one embedding
serves both.) -/
def matchesProtectedPattern (name : List Char) (patterns : List (List Char)) :
    Bool :=
  patterns.any (fun pattern => matchGlob name pattern)

/-- Spec-side matcher, following the claim's words: the name matches the
pattern iff it equals the pattern with each `*` interpreted as any run of
characters and every other character taken literally, anchored at both
ends. -/
def specGlobMatches : List Char → List Char → Bool
  | [], s => s.isEmpty
  | p :: ps, s =>
    if p = '*' then s.tails.any (fun t => specGlobMatches ps t)
    else
      match s with
      | c :: s' => p = c && specGlobMatches ps s'
      | [] => false

/-! ### Theorems for claim C8 (protected-pattern matching) -/

/-- The atoms `compileGlob` produces for a `?`-free pattern: `*` becomes
`.*` and everything else is a literal. -/
def simpleAtoms (pattern : List Char) : List RAtom :=
  pattern.map (fun c => if c = '*' then RAtom.anyStar else RAtom.lit c)

theorem compileGlobAux_no_q (p : List Char) :
    ∀ acc, '?' ∉ p → compileGlobAux p acc = some (acc.reverse ++ simpleAtoms p) := by
  induction p with
  | nil => intro acc h; simp [compileGlobAux, simpleAtoms]
  | cons c rest ih =>
    intro acc h
    have hc : c ≠ '?' := fun hq => h (hq ▸ List.mem_cons_self _ _)
    have hrest : '?' ∉ rest := fun hq => h (List.mem_cons_of_mem _ hq)
    unfold compileGlobAux
    by_cases hstar : c = '*'
    · rw [if_pos hstar, ih _ hrest]
      simp [simpleAtoms, hstar]
    · rw [if_neg hstar, if_neg hc, ih _ hrest]
      simp [simpleAtoms, hstar]

theorem compileGlob_no_q (p : List Char) (h : '?' ∉ p) :
    compileGlob p = some (simpleAtoms p) := by
  unfold compileGlob
  rw [compileGlobAux_no_q p [] h]
  simp

theorem ratomMatch_simpleAtoms (p : List Char) :
    ∀ s, ratomMatch (simpleAtoms p) s = specGlobMatches p s := by
  induction p with
  | nil => intro s; rfl
  | cons c ps ih =>
    intro s
    by_cases hstar : c = '*'
    · subst hstar
      simp only [simpleAtoms, List.map_cons, if_pos rfl]
      show (s.tails.any (fun t =>
          ratomMatch (List.map (fun c => if c = '*' then RAtom.anyStar
            else RAtom.lit c) ps) t)) =
        (if ('*' : Char) = '*' then s.tails.any (fun t => specGlobMatches ps t)
          else match s with
            | c :: s' => ('*' : Char) = c && specGlobMatches ps s'
            | [] => false)
      rw [if_pos rfl]
      simp only [show (List.map (fun c => if c = '*' then RAtom.anyStar
        else RAtom.lit c) ps) = simpleAtoms ps from rfl]
      simp only [ih]
    · simp only [simpleAtoms, List.map_cons, if_neg hstar]
      show (match s with
          | c' :: s' => c = c' && ratomMatch (List.map (fun c =>
              if c = '*' then RAtom.anyStar else RAtom.lit c) ps) s'
          | [] => false) =
        (if c = '*' then s.tails.any (fun t => specGlobMatches ps t)
          else match s with
            | c' :: s' => c = c' && specGlobMatches ps s'
            | [] => false)
      rw [if_neg hstar]
      simp only [show (List.map (fun c => if c = '*' then RAtom.anyStar
        else RAtom.lit c) ps) = simpleAtoms ps from rfl]
      cases s with
      | nil => rfl
      | cons c' s' => simp [ih]

theorem specGlobMatches_suffix (ps : List Char) (t s : List Char)
    (hsuf : s <:+ t) (h : specGlobMatches ps s = true) :
    specGlobMatches ('*' :: ps) t = true := by
  show (if ('*' : Char) = '*' then t.tails.any (fun x => specGlobMatches ps x)
    else match t with
      | c :: s' => ('*' : Char) = c && specGlobMatches ps s'
      | [] => false) = true
  rw [if_pos rfl]
  rw [List.any_eq_true]
  exact ⟨s, (List.mem_tails _ _).mpr hsuf, h⟩

theorem specGlobMatches_refl (p : List Char) : specGlobMatches p p = true := by
  induction p with
  | nil => rfl
  | cons c ps ih =>
    by_cases hstar : c = '*'
    · subst hstar
      exact specGlobMatches_suffix ps ('*' :: ps) ps (List.suffix_cons _ _) ih
    · show (if c = '*' then (c :: ps).tails.any (fun t => specGlobMatches ps t)
        else match c :: ps with
          | c' :: s' => c = c' && specGlobMatches ps s'
          | [] => false) = true
      rw [if_neg hstar]
      simp [ih]

theorem matchGlob_eq_spec (value pattern : List Char) (h : '?' ∉ pattern) :
    matchGlob value pattern = specGlobMatches pattern value := by
  unfold matchGlob
  by_cases heq : pattern = value
  · rw [if_pos heq, heq]
    exact (specGlobMatches_refl value).symm
  · rw [if_neg heq, compileGlob_no_q pattern h]
    exact ratomMatch_simpleAtoms pattern value

/-- C8, counterexample: the claim says every regex metacharacter except `*`
is escaped, so any other character is taken literally.  But the escape class
omits `?`: the pattern `ab?` is compiled to the regex `^ab?$`, which matches
the name `a` (optional `b`), while the claim's glob semantics (with `?`
literal) rejects it. -/
theorem c8_glob_counterexample :
    matchesProtectedPattern ("a".data) [("ab?".data)] = true ∧
    specGlobMatches ("ab?".data) ("a".data) = false := by
  refine ⟨by decide, by decide⟩

/-- C8 (amended): for every branch short name and every pattern list in which
no pattern contains `?`, the branch is marked protected iff some pattern
matches the name, where a pattern matches iff the name equals the pattern
with each `*` interpreted as any run of characters and every other character
taken literally, anchored at both ends.  (A `?` in a pattern is not escaped
and acts as a regex optional-quantifier instead.) -/
theorem c8_protected_pattern_matching (name : List Char)
    (patterns : List (List Char)) (h : ∀ p ∈ patterns, '?' ∉ p) :
    matchesProtectedPattern name patterns = true ↔
      ∃ p ∈ patterns, specGlobMatches p name = true := by
  unfold matchesProtectedPattern
  rw [List.any_eq_true]
  constructor
  · rintro ⟨p, hp, hm⟩
    exact ⟨p, hp, (matchGlob_eq_spec name p (h p hp)) ▸ hm⟩
  · rintro ⟨p, hp, hm⟩
    exact ⟨p, hp, (matchGlob_eq_spec name p (h p hp)).symm ▸ hm⟩

/-- Witness for `c8_protected_pattern_matching` on the spec's scenario:
patterns `["main", "release/*"]` protect `release/1.0`. -/
theorem c8_protected_pattern_matching_witness :
    matchesProtectedPattern ("release/1.0".data)
      [("main".data), ("release/*".data)] = true :=
  (c8_protected_pattern_matching ("release/1.0".data)
      [("main".data), ("release/*".data)] (by decide)).mpr
    ⟨("release/*".data), by decide, by decide⟩

/-! ### Repository graph and visual layout (`visualization.ts`)

Hashes are modelled as `String`; rows and lanes as `Int` (rows are loop
indices, `-1` is the dangling-edge placeholder; `maxLane` starts at `-1`).
Only the fields of `Commit`/`GitRef`/`RepositoryGraph` that the layout code
reads are carried. -/

/-- Ref kinds (`'local' | 'remote' | 'tag'`; `local` is a Lean keyword, so the
constructors carry a `Ref` suffix). -/
inductive RefType
  | localRef
  | remoteRef
  | tagRef
deriving DecidableEq, Repr

/-- The fields of a `GitRef` consulted by the layout engine. -/
structure GitRefV where
  name : String
  type : RefType
  isHead : Bool
deriving DecidableEq, Repr

/-- The fields of a `Commit` consulted by the layout engine and traversals. -/
structure GraphCommit where
  parents : List String
deriving DecidableEq, Repr

/-- The fields of `RepositoryGraph` consulted by `createVisualGraph` and
`findMergeBase`. -/
structure RepoGraph where
  commits : JsMap String GraphCommit
  children : JsMap String (List String)
  refsByCommit : JsMap String (List GitRefV)
  head : Option String
  topologicalOrder : List String
deriving DecidableEq, Repr

inductive EdgeType
  | straight
  | merge
  | fork
deriving DecidableEq, Repr

structure VisualRef where
  name : String
  type : RefType
  isHead : Bool
  isProtected : Bool
deriving DecidableEq, Repr

structure VisualEdge where
  id : String
  fromHash : String
  toHash : String
  fromRow : Int
  fromLane : Int
  toRow : Int
  toLane : Int
  type : EdgeType
  parentIndex : Nat
deriving DecidableEq, Repr

structure VisualCommit where
  hash : String
  row : Int
  lane : Int
  isMerge : Bool
  isBranchTip : Bool
  isRoot : Bool
  isHead : Bool
  refs : List VisualRef
  edgeIds : List String
deriving DecidableEq, Repr

structure VisualGraph where
  commits : List VisualCommit
  edges : List VisualEdge
  totalRows : Nat
  totalLanes : Int
  commitByHash : JsMap String VisualCommit
  commitByRow : JsMap Int VisualCommit
  edgeById : JsMap String VisualEdge
  activeLanesAtRow : JsMap Int (List Int)
deriving DecidableEq, Repr

structure LayoutOptions where
  protectedBranches : List String := []
deriving DecidableEq, Repr

/-- Internal state for lane assignment. -/
structure LaneState where
  laneByCommit : JsMap String Int
  activeLanes : JsMap Int String
  freeLanes : List Int
  maxLane : Int
deriving DecidableEq, Repr

/-- Numeric ascending sort (`.sort((a, b) => a - b)`). -/
def sortedLanes (l : List Int) : List Int :=
  List.insertionSort (· ≤ ·) l

/-- `allocateLane`: reuse the smallest free lane (the source sorts the free
list in place, then shifts the head), else extend `maxLane`. -/
def allocateLane (st : LaneState) : Int × LaneState :=
  match st.freeLanes with
  | [] => (st.maxLane + 1, { st with maxLane := st.maxLane + 1 })
  | f :: fs =>
    let sorted := sortedLanes (f :: fs)
    (sorted.headD 0, { st with freeLanes := sorted.drop 1 })

/-- `freeLane`: push the lane onto the free list (no duplicates) and drop it
from the active set. -/
def freeLane (st : LaneState) (lane : Int) : LaneState :=
  { st with
    freeLanes :=
      if st.freeLanes.contains lane then st.freeLanes
      else st.freeLanes ++ [lane]
    activeLanes := st.activeLanes.delete lane }

/-- `toVisualRef`: protectedness is recomputed from the layout options. -/
def toVisualRef (ref : GitRefV) (opts : LayoutOptions) : VisualRef :=
  { name := ref.name
    type := ref.type
    isHead := ref.isHead
    isProtected := matchesProtectedPattern ref.name.data
      (opts.protectedBranches.map (fun p => p.data)) }

/-- Construct one parent edge (`toRow` is the `-1` placeholder; the type rule
is `merge` for a later parent of a multi-parent commit, else `fork` on a lane
change, else `straight`). -/
def mkEdge (hash parentHash : String) (row : Nat) (lane parentLane : Int)
    (numParents parentIndex : Nat) : VisualEdge :=
  { id := hash ++ "-" ++ parentHash ++ "-" ++ Nat.repr parentIndex
    fromHash := hash
    toHash := parentHash
    fromRow := (row : Int)
    fromLane := lane
    toRow := -1
    toLane := parentLane
    type :=
      if 1 < numParents ∧ 0 < parentIndex then EdgeType.merge
      else if lane ≠ parentLane then EdgeType.fork
      else EdgeType.straight
    parentIndex := parentIndex }

/-- The parent loop of `createVisualGraph`: reserve a lane for each parent
(first parent inherits the commit's lane, later parents allocate) and emit
the edges in parent order. -/
def processParents (hash : String) (row : Nat) (lane : Int) (numParents : Nat) :
    List String → Nat → LaneState → LaneState × List VisualEdge
  | [], _, st => (st, [])
  | parentHash :: rest, parentIndex, st =>
    let next :=
      match st.laneByCommit.get parentHash with
      | some pl => (pl, st)
      | none =>
        if parentIndex = 0 then
          (lane, { st with laneByCommit := st.laneByCommit.set parentHash lane })
        else
          let alloc := allocateLane st
          (alloc.1, { alloc.2 with
            laneByCommit := alloc.2.laneByCommit.set parentHash alloc.1 })
    let edge := mkEdge hash parentHash row lane next.1 numParents parentIndex
    let result := processParents hash row lane numParents rest (parentIndex + 1) next.2
    (result.1, edge :: result.2)

/-- Accumulated layout state over the row loop. -/
structure BuildState where
  st : LaneState
  commits : List VisualCommit
  edges : List VisualEdge
  commitByHash : JsMap String VisualCommit
  commitByRow : JsMap Int VisualCommit
  edgeById : JsMap String VisualEdge
  activeLanesAtRow : JsMap Int (List Int)
deriving DecidableEq, Repr

/-- One iteration of the row loop of `createVisualGraph`: missing commits are
skipped (`continue`; the row index still advances).  Otherwise: take the
reserved lane or allocate one, occupy it, emit parent edges, free the lane
when no child continues it and no parent reservation points back at it (and
it is not lane 0), snapshot the sorted active lanes, release the occupied
lane, and emit the visual commit and indices. -/
def processRow (graph : RepoGraph) (opts : LayoutOptions) (row : Nat)
    (hash : String) (bs : BuildState) : BuildState :=
  match graph.commits.get hash with
  | none => bs
  | some commit =>
    let laneSt :=
      match bs.st.laneByCommit.get hash with
      | some l => (l, bs.st)
      | none => allocateLane bs.st
    let lane := laneSt.1
    let st2 := { laneSt.2 with activeLanes := laneSt.2.activeLanes.set lane hash }
    let refsAtCommit := (graph.refsByCommit.get hash).getD []
    let visualRefs := refsAtCommit.map (fun r => toVisualRef r opts)
    let stEdges := processParents hash row lane commit.parents.length
      commit.parents 0 st2
    let st3 := stEdges.1
    let newEdges := stEdges.2
    let edgeIds := newEdges.map (fun e => e.id)
    let children := (graph.children.get hash).getD []
    let hasChildInSameLane := children.any (fun childHash =>
      match bs.commitByHash.get childHash with
      | some vc => vc.lane == lane
      | none => false)
    let isLaneReservedForParent := commit.parents.any (fun p =>
      st3.laneByCommit.get p == some lane)
    let st4 :=
      if (children.isEmpty || !hasChildInSameLane) &&
          (!isLaneReservedForParent && decide (0 < lane)) then
        freeLane st3 lane
      else st3
    let currentActiveLanes := sortedLanes st4.activeLanes.keys
    let newActiveLanesAtRow := bs.activeLanesAtRow.set (row : Int) currentActiveLanes
    let st5 :=
      if st4.activeLanes.get lane == some hash then
        { st4 with activeLanes := st4.activeLanes.delete lane }
      else st4
    let visualCommit : VisualCommit :=
      { hash := hash
        row := (row : Int)
        lane := lane
        isMerge := decide (1 < commit.parents.length)
        isBranchTip := !refsAtCommit.isEmpty
        isRoot := commit.parents.isEmpty ||
          commit.parents.all (fun p => (graph.commits.get p).isNone)
        isHead := graph.head == some hash
        refs := visualRefs
        edgeIds := edgeIds }
    { st := st5
      commits := bs.commits ++ [visualCommit]
      edges := bs.edges ++ newEdges
      commitByHash := bs.commitByHash.set hash visualCommit
      commitByRow := bs.commitByRow.set (row : Int) visualCommit
      edgeById := newEdges.foldl (fun m e => m.set e.id e) bs.edgeById
      activeLanesAtRow := newActiveLanesAtRow }

/-- The row loop: `for (let row = 0; row < orderedHashes.length; row++)`. -/
def buildLoop (graph : RepoGraph) (opts : LayoutOptions) :
    List String → Nat → BuildState → BuildState
  | [], _, bs => bs
  | hash :: rest, row, bs =>
    buildLoop graph opts rest (row + 1) (processRow graph opts row hash bs)

def initialBuildState : BuildState :=
  { st := { laneByCommit := JsMap.empty, activeLanes := JsMap.empty,
            freeLanes := [], maxLane := -1 }
    commits := []
    edges := []
    commitByHash := JsMap.empty
    commitByRow := JsMap.empty
    edgeById := JsMap.empty
    activeLanesAtRow := JsMap.empty }

/-- Second pass over the edges: fill in `toRow` from the target commit's row;
edges whose target is absent keep `toRow = -1`.  (The source replaces the
edge object in the array; the functional map is the same transformation.) -/
def fillToRow (commitByHash : JsMap String VisualCommit) (e : VisualEdge) :
    VisualEdge :=
  match commitByHash.get e.toHash with
  | some parentCommit => { e with toRow := parentCommit.row }
  | none => e

/-- `createVisualGraph` from `visualization.ts`. -/
def createVisualGraph (graph : RepoGraph) (opts : LayoutOptions) : VisualGraph :=
  let bs := buildLoop graph opts graph.topologicalOrder.reverse 0 initialBuildState
  { commits := bs.commits
    edges := bs.edges.map (fillToRow bs.commitByHash)
    totalRows := bs.commits.length
    totalLanes := bs.st.maxLane + 1
    commitByHash := bs.commitByHash
    commitByRow := bs.commitByRow
    edgeById := bs.edges.foldl
      (fun m e =>
        match bs.commitByHash.get e.toHash with
        | some pc => m.set e.id { e with toRow := pc.row }
        | none => m)
      bs.edgeById
    activeLanesAtRow := bs.activeLanesAtRow }

/-- `getVisibleEdges`: edges whose row span overlaps `[startRow, endRow]`,
deduplicated by id (an id enters `seen` only when its edge is emitted). -/
def getVisibleEdges (g : VisualGraph) (startRow endRow : Int) :
    List VisualEdge :=
  (g.edges.foldl
    (fun (acc : List VisualEdge × List String) edge =>
      if acc.2.contains edge.id then acc
      else if startRow ≤ max edge.fromRow edge.toRow ∧
          min edge.fromRow edge.toRow ≤ endRow then
        (acc.1 ++ [edge], acc.2 ++ [edge.id])
      else acc)
    ([], [])).1

structure BoundingBox where
  minRow : Int
  maxRow : Int
  minLane : Int
  maxLane : Int
deriving DecidableEq, Repr

/-- Running minimum seeded with `Infinity` (`none`). -/
def foldMin (acc : Option Int) (x : Int) : Option Int :=
  some (match acc with | none => x | some v => min v x)

/-- Running maximum seeded with `-Infinity` (`none`). -/
def foldMax (acc : Option Int) (x : Int) : Option Int :=
  some (match acc with | none => x | some v => max v x)

/-- `getBoundingBox`: an empty commit list yields the all-zero box; otherwise
the row bounds range over the commits only, while the lane bounds range over
the commits and both lane endpoints of every edge.  (The source updates all
four accumulators in one loop over commits and one over edges; the separate
folds below compute the same values, and the `getD 0` defaults are never
reached because the commit list is non-empty.) -/
def getBoundingBox (commits : List VisualCommit) (edges : List VisualEdge) :
    BoundingBox :=
  if commits.isEmpty then
    { minRow := 0, maxRow := 0, minLane := 0, maxLane := 0 }
  else
    let minRow := commits.foldl (fun a c => foldMin a c.row) none
    let maxRow := commits.foldl (fun a c => foldMax a c.row) none
    let minLaneC := commits.foldl (fun a c => foldMin a c.lane) none
    let maxLaneC := commits.foldl (fun a c => foldMax a c.lane) none
    let minLane := edges.foldl
      (fun a e => foldMin (foldMin a e.fromLane) e.toLane) minLaneC
    let maxLane := edges.foldl
      (fun a e => foldMax (foldMax a e.fromLane) e.toLane) maxLaneC
    { minRow := minRow.getD 0
      maxRow := maxRow.getD 0
      minLane := minLane.getD 0
      maxLane := maxLane.getD 0 }

/-- `edgesCross` from `visualization.ts`, with the source's inequality
directions kept exactly (`e1MaxRow <= e2MinRow || e2MaxRow <= e1MinRow`
rejects, zero lane direction rejects, `e1Right <= e2Left || e2Right <=
e1Left` rejects, else the lane-direction signs must differ). -/
def edgesCross (e1 e2 : VisualEdge) : Bool :=
  if max e1.fromRow e1.toRow ≤ min e2.fromRow e2.toRow ∨
      max e2.fromRow e2.toRow ≤ min e1.fromRow e1.toRow then false
  else if e1.toLane - e1.fromLane = 0 ∨ e2.toLane - e2.fromLane = 0 then false
  else if max e1.fromLane e1.toLane ≤ min e2.fromLane e2.toLane ∨
      max e2.fromLane e2.toLane ≤ min e1.fromLane e1.toLane then false
  else (decide (0 < e1.toLane - e1.fromLane)) !=
    (decide (0 < e2.toLane - e2.fromLane))

/-- `countCrossings`: crossing tests over all unordered edge pairs. -/
def countCrossings : List VisualEdge → Nat
  | [] => 0
  | e :: rest => (rest.filter (fun e2 => edgesCross e e2)).length + countCrossings rest

/-- `remapEdgeLanes`: apply a lane mapping to both endpoints (lanes without a
mapping entry are left unchanged, `mapping.get(...) ?? lane`). -/
def remapEdgeLanes (edges : List VisualEdge) (mapping : JsMap Int Int) :
    List VisualEdge :=
  edges.map (fun e =>
    { e with
      fromLane := (mapping.get e.fromLane).getD e.fromLane
      toLane := (mapping.get e.toLane).getD e.toLane })

/-- `applyLaneMapping`: remap commits, edges and active-lane snapshots and
rebuild the three indices. -/
def applyLaneMapping (g : VisualGraph) (mapping : JsMap Int Int) : VisualGraph :=
  let newCommits := g.commits.map (fun c =>
    { c with lane := (mapping.get c.lane).getD c.lane })
  let newEdges := remapEdgeLanes g.edges mapping
  { commits := newCommits
    edges := newEdges
    totalRows := g.totalRows
    totalLanes := g.totalLanes
    commitByHash := newCommits.foldl (fun m c => m.set c.hash c) JsMap.empty
    commitByRow := newCommits.foldl (fun m c => m.set c.row c) JsMap.empty
    edgeById := newEdges.foldl (fun m e => m.set e.id e) JsMap.empty
    activeLanesAtRow := g.activeLanesAtRow.entries.foldl
      (fun m rl => m.set rl.1
        (sortedLanes (rl.2.map (fun l => (mapping.get l).getD l))))
      JsMap.empty }

/-- The identity lane mapping over `0 .. totalLanes - 1`. -/
def identityMapping (totalLanes : Int) : JsMap Int Int :=
  (List.range totalLanes.toNat).foldl
    (fun m i => m.set (i : Int) (i : Int)) JsMap.empty

/-- One pass of the optimizer's inner `for` loop: for each adjacent lane pair,
tentatively swap their mapping entries and keep the swap iff the remapped
edges have strictly fewer crossings than the ORIGINAL count `c0` (the source
compares against the crossing count taken before the loop and never updates
it). -/
def swapPass (edges : List VisualEdge) (c0 : Nat) (totalLanes : Int)
    (mapping : JsMap Int Int) : JsMap Int Int × Bool :=
  (List.range (totalLanes - 1).toNat).foldl
    (fun acc k =>
      let lane : Int := (k : Int)
      let a := (acc.1.get lane).getD 0
      let b := (acc.1.get (lane + 1)).getD 0
      let newMapping := (acc.1.set lane b).set (lane + 1) a
      if countCrossings (remapEdgeLanes edges newMapping) < c0 then
        (newMapping, true)
      else acc)
    (mapping, false)

/-- The optimizer's `while (improved)` loop, with explicit fuel: `none` marks
fuel exhaustion (the source's loop is unbounded and can in fact run forever
on adversarial inputs; every instance evaluated in this file terminates well
within the fuel given). -/
def optimizeLoop (edges : List VisualEdge) (c0 : Nat) (totalLanes : Int) :
    Nat → JsMap Int Int → Option (JsMap Int Int)
  | 0, _ => none
  | fuel + 1, mapping =>
    let pass := swapPass edges c0 totalLanes mapping
    if pass.2 then optimizeLoop edges c0 totalLanes fuel pass.1
    else some pass.1

/-- `optimizeLanes` from `visualization.ts` (fuelled): zero crossings returns
the graph unchanged; otherwise run the greedy adjacent-swap loop; an identity
final mapping returns the graph unchanged, else the mapping is applied. -/
def optimizeLanesFuel (fuel : Nat) (g : VisualGraph) : Option VisualGraph :=
  let crossings := countCrossings g.edges
  if crossings = 0 then some g
  else
    match optimizeLoop g.edges crossings g.totalLanes fuel
        (identityMapping g.totalLanes) with
    | none => none
    | some mapping =>
      if mapping.entries.all (fun kv => kv.1 == kv.2) then some g
      else some (applyLaneMapping g mapping)

/-! ### `findMergeBase` (graph traversal) -/

theorem containsStr_iff (l : List String) (x : String) :
    l.contains x = true ↔ x ∈ l := by
  simp [List.contains]

/-- All parent hashes appearing anywhere in the loaded commits (the finite
universe BFS can ever visit beyond its start nodes). -/
def parentUniverse (g : RepoGraph) : List String :=
  g.commits.entries.foldr (fun e acc => e.2.parents ++ acc) []

/-- The parents of a node when it is loaded, `[]` otherwise (a missing commit
silently terminates that branch of the traversal). -/
def stepParents (g : RepoGraph) (c : String) : List String :=
  match g.commits.get c with
  | some gc => gc.parents
  | none => []

theorem mem_foldr_parents (l : List (String × GraphCommit))
    (e : String × GraphCommit) (he : e ∈ l) (p : String)
    (hp : p ∈ e.2.parents) :
    p ∈ l.foldr (fun e acc => e.2.parents ++ acc) [] := by
  induction l with
  | nil => simp at he
  | cons e' l ih =>
    rcases List.mem_cons.mp he with rfl | he'
    · exact List.mem_append.mpr (Or.inl hp)
    · exact List.mem_append.mpr (Or.inr (ih he'))

theorem stepParents_subset (g : RepoGraph) (c p : String)
    (hp : p ∈ stepParents g c) : p ∈ parentUniverse g := by
  unfold stepParents at hp
  cases hget : g.commits.get c with
  | none => rw [hget] at hp; simp at hp
  | some gc =>
    rw [hget] at hp
    exact mem_foldr_parents _ _ (JsMap.get_eq_some_mem_entries _ _ _ hget) _ hp

theorem length_filter_le_of_imp (U : List String) (p p' : String → Bool)
    (hmono : ∀ x, p' x = true → p x = true) :
    (U.filter p').length ≤ (U.filter p).length := by
  induction U with
  | nil => simp
  | cons a U ih =>
    rw [List.filter_cons, List.filter_cons]
    cases ha' : p' a with
    | true =>
      rw [hmono a ha']
      simpa using ih
    | false =>
      cases ha : p a with
      | true => simp only [if_true]; simp only [Bool.false_eq_true, if_false]
                exact Nat.le_succ_of_le ih
      | false => simpa using ih

theorem length_filter_lt_of_witness (U : List String) (p p' : String → Bool)
    (hmono : ∀ x, p' x = true → p x = true) (u : String) (hu : u ∈ U)
    (hp : p u = true) (hp' : p' u = false) :
    (U.filter p').length < (U.filter p).length := by
  induction U with
  | nil => simp at hu
  | cons a U ih =>
    rw [List.filter_cons, List.filter_cons]
    rcases List.mem_cons.mp hu with rfl | hu'
    · rw [hp, hp']
      simp only [Bool.false_eq_true, if_false, if_true, List.length_cons]
      exact Nat.lt_succ_of_le (length_filter_le_of_imp U p p' hmono)
    · cases ha' : p' a with
      | true =>
        rw [hmono a ha']
        simpa using ih hu'
      | false =>
        cases ha : p a with
        | true =>
          simp only [if_true, Bool.false_eq_true, if_false, List.length_cons]
          exact Nat.lt_succ_of_lt (ih hu')
        | false => simpa using ih hu'

/-- Nodes not yet visited, counted within the traversal universe: the first
component of the BFS termination measure. -/
def unvisitedCount (g : RepoGraph) (v : List String) : Nat :=
  ((parentUniverse g).filter (fun x => !v.contains x)).length

theorem unvisitedCount_le_of_append (g : RepoGraph) (v new : List String) :
    unvisitedCount g (v ++ new) ≤ unvisitedCount g v := by
  apply length_filter_le_of_imp
  intro x hx
  simp only [Bool.not_eq_true'] at hx ⊢
  cases hv : v.contains x with
  | false => rfl
  | true =>
    exfalso
    have : (v ++ new).contains x = true :=
      (containsStr_iff _ _).mpr (List.mem_append.mpr
        (Or.inl ((containsStr_iff _ _).mp hv)))
    rw [this] at hx
    exact Bool.true_eq_false.mp hx

theorem unvisitedCount_lt_of_new (g : RepoGraph) (v new : List String)
    (u : String) (hu : u ∈ new) (huU : u ∈ parentUniverse g) (huv : u ∉ v) :
    unvisitedCount g (v ++ new) < unvisitedCount g v := by
  apply length_filter_lt_of_witness
  · intro x hx
    simp only [Bool.not_eq_true'] at hx ⊢
    cases hv : v.contains x with
    | false => rfl
    | true =>
      exfalso
      have : (v ++ new).contains x = true :=
        (containsStr_iff _ _).mpr (List.mem_append.mpr
          (Or.inl ((containsStr_iff _ _).mp hv)))
      rw [this] at hx
      exact Bool.true_eq_false.mp hx
  · exact huU
  · simp only [Bool.not_eq_true']
    cases hv : v.contains u with
    | false => rfl
    | true => exact absurd ((containsStr_iff _ _).mp hv) huv
  · show (!(v ++ new).contains u) = false
    have hc : (v ++ new).contains u = true :=
      (containsStr_iff _ _).mpr (List.mem_append.mpr (Or.inr hu))
    rw [hc]
    rfl

/-- The per-node enqueue step of the ancestor BFS of `findMergeBase`: for each
parent, if it is not yet in the visited set, add it to the set and the
queue. -/
def enqueueParents : List String → List String × List String →
    List String × List String
  | [], vq => vq
  | p :: ps, vq =>
    if vq.1.contains p then enqueueParents ps vq
    else enqueueParents ps (vq.1 ++ [p], vq.2 ++ [p])

theorem enqueueParents_spec (ps : List String) :
    ∀ v q, ∃ new, enqueueParents ps (v, q) = (v ++ new, q ++ new) ∧
      (∀ x ∈ new, x ∈ ps) ∧ (∀ x ∈ new, x ∉ v) ∧
      (∀ p ∈ ps, p ∈ v ++ new) := by
  induction ps with
  | nil =>
    intro v q
    exact ⟨[], by simp [enqueueParents], by simp, by simp, by simp⟩
  | cons p ps ih =>
    intro v q
    unfold enqueueParents
    by_cases hc : v.contains p = true
    · simp only [hc, if_true]
      rcases ih v q with ⟨new, heq, hsub, hnot, hcov⟩
      refine ⟨new, heq, fun x hx => List.mem_cons_of_mem _ (hsub x hx), hnot, ?_⟩
      intro x hx
      rcases List.mem_cons.mp hx with rfl | hx'
      · exact List.mem_append.mpr (Or.inl ((containsStr_iff _ _).mp hc))
      · exact hcov x hx'
    · simp only [hc, Bool.false_eq_true, if_false]
      rcases ih (v ++ [p]) (q ++ [p]) with ⟨new', heq, hsub, hnot, hcov⟩
      refine ⟨p :: new', ?_, ?_, ?_, ?_⟩
      · rw [heq]
        simp
      · intro x hx
        rcases List.mem_cons.mp hx with rfl | hx'
        · exact List.mem_cons_self _ _
        · exact List.mem_cons_of_mem _ (hsub x hx')
      · intro x hx
        rcases List.mem_cons.mp hx with rfl | hx'
        · intro hv
          exact hc ((containsStr_iff _ _).mpr hv)
        · intro hv
          exact hnot x hx' (List.mem_append.mpr (Or.inl hv))
      · intro x hx
        rcases List.mem_cons.mp hx with rfl | hx'
        · exact List.mem_append.mpr (Or.inr (List.mem_cons_self _ _))
        · have := hcov x hx'
          rcases List.mem_append.mp this with h1 | h1
          · rcases List.mem_append.mp h1 with h2 | h2
            · exact List.mem_append.mpr (Or.inl h2)
            · exact List.mem_append.mpr (Or.inr (by
                simpa using Or.inl (List.mem_singleton.mp h2)))
          · exact List.mem_append.mpr (Or.inr (List.mem_cons_of_mem _ h1))

/-- The first loop of `findMergeBase`: collect `hash1` and all of its
ancestors (BFS through the parents of loaded commits). -/
def bfsAncestors (g : RepoGraph) : List String → List String → List String
  | visited, [] => visited
  | visited, current :: rest =>
    bfsAncestors g (enqueueParents (stepParents g current) (visited, rest)).1
      (enqueueParents (stepParents g current) (visited, rest)).2
termination_by visited queue => (unvisitedCount g visited, queue.length)
decreasing_by
  rcases enqueueParents_spec (stepParents g current) visited rest with
    ⟨new, heq, hsub, hnot, hcov⟩
  rw [heq]
  dsimp only
  cases new with
  | nil =>
    rw [List.append_nil, List.append_nil]
    apply Prod.Lex.right
    simp
  | cons n ns =>
    apply Prod.Lex.left
    exact unvisitedCount_lt_of_new g visited (n :: ns) n
      (List.mem_cons_self _ _)
      (stepParents_subset g current n (hsub n (List.mem_cons_self _ _)))
      (hnot n (List.mem_cons_self _ _))

/-- The inner parent scan of the second loop of `findMergeBase`: for each
parent in order, return it if it lies in the ancestor set of `hash1`, else
enqueue it when unvisited. -/
def scanParents (anc1 : List String) :
    List String → List String → List String →
      Option String × List String × List String
  | [], visited, queue => (none, visited, queue)
  | p :: ps, visited, queue =>
    if anc1.contains p then (some p, visited, queue)
    else if visited.contains p then scanParents anc1 ps visited queue
    else scanParents anc1 ps (visited ++ [p]) (queue ++ [p])

/-- Unconditional shape of a `scanParents` result (used for termination): the
visited set and queue only grow, by the same fresh elements. -/
theorem scanParents_shape (anc1 : List String) (ps : List String) :
    ∀ v q, ∃ new, (scanParents anc1 ps v q).2.1 = v ++ new ∧
      (scanParents anc1 ps v q).2.2 = q ++ new ∧
      (∀ x ∈ new, x ∈ ps) ∧ (∀ x ∈ new, x ∉ v) := by
  induction ps with
  | nil =>
    intro v q
    exact ⟨[], by simp [scanParents], by simp [scanParents], by simp, by simp⟩
  | cons p ps ih =>
    intro v q
    unfold scanParents
    by_cases ha : anc1.contains p = true
    · simp only [ha, if_true]
      exact ⟨[], by simp, by simp, by simp, by simp⟩
    · simp only [ha, Bool.false_eq_true, if_false]
      by_cases hv : v.contains p = true
      · simp only [hv, if_true]
        rcases ih v q with ⟨new, h1, h2, h3, h4⟩
        exact ⟨new, h1, h2, fun x hx => List.mem_cons_of_mem _ (h3 x hx), h4⟩
      · simp only [hv, Bool.false_eq_true, if_false]
        rcases ih (v ++ [p]) (q ++ [p]) with ⟨new', h1, h2, h3, h4⟩
        refine ⟨p :: new', ?_, ?_, ?_, ?_⟩
        · rw [h1]; simp
        · rw [h2]; simp
        · intro x hx
          rcases List.mem_cons.mp hx with rfl | hx'
          · exact List.mem_cons_self _ _
          · exact List.mem_cons_of_mem _ (h3 x hx')
        · intro x hx
          rcases List.mem_cons.mp hx with rfl | hx'
          · intro hin; exact hv ((containsStr_iff _ _).mpr hin)
          · intro hin; exact h4 x hx' (List.mem_append.mpr (Or.inl hin))

/-- When the scan returns a hit, the hit is a parent from the list and lies in
the ancestor set. -/
theorem scanParents_some (anc1 : List String) (ps : List String) :
    ∀ v q r, (scanParents anc1 ps v q).1 = some r →
      r ∈ ps ∧ anc1.contains r = true := by
  induction ps with
  | nil => intro v q r h; simp [scanParents] at h
  | cons p ps ih =>
    intro v q r h
    unfold scanParents at h
    by_cases ha : anc1.contains p = true
    · simp only [ha, if_true] at h
      cases h
      exact ⟨List.mem_cons_self _ _, ha⟩
    · simp only [ha, Bool.false_eq_true, if_false] at h
      by_cases hv : v.contains p = true
      · simp only [hv, if_true] at h
        rcases ih v q r h with ⟨h1, h2⟩
        exact ⟨List.mem_cons_of_mem _ h1, h2⟩
      · simp only [hv, Bool.false_eq_true, if_false] at h
        rcases ih (v ++ [p]) (q ++ [p]) r h with ⟨h1, h2⟩
        exact ⟨List.mem_cons_of_mem _ h1, h2⟩

/-- When the scan returns no hit, no parent lies in the ancestor set, every
parent ends up visited, and the fresh elements avoid the ancestor set. -/
theorem scanParents_none (anc1 : List String) (ps : List String) :
    ∀ v q, (scanParents anc1 ps v q).1 = none →
      ∃ new, (scanParents anc1 ps v q).2.1 = v ++ new ∧
        (scanParents anc1 ps v q).2.2 = q ++ new ∧
        (∀ x ∈ new, x ∈ ps) ∧ (∀ x ∈ new, x ∉ v) ∧
        (∀ x ∈ new, anc1.contains x = false) ∧
        (∀ p ∈ ps, anc1.contains p = false) ∧
        (∀ p ∈ ps, p ∈ v ++ new) := by
  induction ps with
  | nil =>
    intro v q h
    exact ⟨[], by simp [scanParents], by simp [scanParents], by simp, by simp,
      by simp, by simp, by simp⟩
  | cons p ps ih =>
    intro v q h
    unfold scanParents at h ⊢
    by_cases ha : anc1.contains p = true
    · simp only [ha, if_true] at h
      simp at h
    · simp only [ha, Bool.false_eq_true, if_false] at h ⊢
      by_cases hv : v.contains p = true
      · simp only [hv, if_true] at h ⊢
        rcases ih v q h with ⟨new, h1, h2, h3, h4, h5, h6, h7⟩
        refine ⟨new, h1, h2, fun x hx => List.mem_cons_of_mem _ (h3 x hx), h4,
          h5, ?_, ?_⟩
        · intro x hx
          rcases List.mem_cons.mp hx with rfl | hx'
          · simpa using ha
          · exact h6 x hx'
        · intro x hx
          rcases List.mem_cons.mp hx with rfl | hx'
          · exact List.mem_append.mpr (Or.inl ((containsStr_iff _ _).mp hv))
          · exact h7 x hx'
      · simp only [hv, Bool.false_eq_true, if_false] at h ⊢
        rcases ih (v ++ [p]) (q ++ [p]) h with ⟨new', h1, h2, h3, h4, h5, h6, h7⟩
        refine ⟨p :: new', ?_, ?_, ?_, ?_, ?_, ?_, ?_⟩
        · rw [h1]; simp
        · rw [h2]; simp
        · intro x hx
          rcases List.mem_cons.mp hx with rfl | hx'
          · exact List.mem_cons_self _ _
          · exact List.mem_cons_of_mem _ (h3 x hx')
        · intro x hx
          rcases List.mem_cons.mp hx with rfl | hx'
          · intro hin; exact hv ((containsStr_iff _ _).mpr hin)
          · intro hin; exact h4 x hx' (List.mem_append.mpr (Or.inl hin))
        · intro x hx
          rcases List.mem_cons.mp hx with rfl | hx'
          · simpa using ha
          · exact h5 x hx'
        · intro x hx
          rcases List.mem_cons.mp hx with rfl | hx'
          · simpa using ha
          · exact h6 x hx'
        · intro x hx
          rcases List.mem_cons.mp hx with rfl | hx'
          · have := h7 -- p ∈ (v ++ [p]) ++ new'
            exact List.mem_append.mpr (Or.inr (List.mem_cons_self _ _))
          · have := h7 x hx'
            rcases List.mem_append.mp this with h8 | h8
            · rcases List.mem_append.mp h8 with h9 | h9
              · exact List.mem_append.mpr (Or.inl h9)
              · exact List.mem_append.mpr (Or.inr (by
                  simpa using Or.inl (List.mem_singleton.mp h9)))
            · exact List.mem_append.mpr (Or.inr (List.mem_cons_of_mem _ h8))

/-- The second loop of `findMergeBase`: BFS from `hash2` through parents,
returning the first parent found in the ancestor set of `hash1`.  (The
source skips the parent loop entirely when the dequeued commit is not
loaded; scanning the empty `stepParents` list is that same skip.) -/
def mergeBaseBFS (g : RepoGraph) (anc1 : List String) :
    List String → List String → Option String
  | _, [] => none
  | visited, current :: rest =>
    match (scanParents anc1 (stepParents g current) visited rest).1 with
    | some p => some p
    | none =>
      mergeBaseBFS g anc1
        (scanParents anc1 (stepParents g current) visited rest).2.1
        (scanParents anc1 (stepParents g current) visited rest).2.2
termination_by visited queue => (unvisitedCount g visited, queue.length)
decreasing_by
  rcases scanParents_shape anc1 (stepParents g current) visited rest with
    ⟨new, h1, h2, h3, h4⟩
  rw [h1, h2]
  cases new with
  | nil =>
    rw [List.append_nil, List.append_nil]
    apply Prod.Lex.right
    simp
  | cons n ns =>
    apply Prod.Lex.left
    exact unvisitedCount_lt_of_new g visited (n :: ns) n
      (List.mem_cons_self _ _)
      (stepParents_subset g current n (h3 n (List.mem_cons_self _ _)))
      (h4 n (List.mem_cons_self _ _))

/-- `findMergeBase` from `graph.ts`: collect `hash1`'s ancestor set
(inclusive); return `hash2` if it lies in that set; otherwise BFS from
`hash2` and return the first parent found in the set; `none` when the search
exhausts. -/
def findMergeBase (g : RepoGraph) (hash1 hash2 : String) : Option String :=
  let ancestors1 := bfsAncestors g [hash1] [hash1]
  if ancestors1.contains hash2 then some hash2
  else mergeBaseBFS g ancestors1 [hash2] [hash2]

/-- `x` is `a` itself or an ancestor of `a` reached through parents of loaded
commits (the closure `findMergeBase` computes for its first argument;
boundary parents of loaded commits are included even when they are not
themselves loaded). -/
inductive Reach (g : RepoGraph) (a : String) : String → Prop
  | refl : Reach g a a
  | step {c p : String} {gc : GraphCommit} (hc : Reach g a c)
      (hget : g.commits.get c = some gc) (hp : p ∈ gc.parents) : Reach g a p

theorem reach_of_stepParents (g : RepoGraph) (a c p : String)
    (hc : Reach g a c) (hp : p ∈ stepParents g c) : Reach g a p := by
  unfold stepParents at hp
  cases hget : g.commits.get c with
  | none => rw [hget] at hp; simp at hp
  | some gc =>
    rw [hget] at hp
    exact Reach.step hc hget hp

theorem bfsAncestors_sound (g : RepoGraph) (a : String) :
    ∀ v q, (∀ x ∈ q, x ∈ v) → (∀ x ∈ v, Reach g a x) →
      ∀ x ∈ bfsAncestors g v q, Reach g a x := by
  intro v q
  induction v, q using bfsAncestors.induct g with
  | case1 v =>
    intro hq hv x hx
    rw [bfsAncestors] at hx
    exact hv x hx
  | case2 v current rest ih =>
    intro hq hv x hx
    rw [bfsAncestors] at hx
    rcases enqueueParents_spec (stepParents g current) v rest with
      ⟨new, heq, hsub, hnot, hcov⟩
    rw [heq] at hx ih
    dsimp only at hx ih
    refine ih ?_ ?_ x hx
    · intro y hy
      rcases List.mem_append.mp hy with hy' | hy'
      · exact List.mem_append.mpr (Or.inl (hq y (List.mem_cons_of_mem _ hy')))
      · exact List.mem_append.mpr (Or.inr hy')
    · intro y hy
      rcases List.mem_append.mp hy with hy' | hy'
      · exact hv y hy'
      · exact reach_of_stepParents g a current y
          (hv current (hq current (List.mem_cons_self _ _))) (hsub y hy')

theorem bfsAncestors_superset (g : RepoGraph) :
    ∀ v q, ∀ x ∈ v, x ∈ bfsAncestors g v q := by
  intro v q
  induction v, q using bfsAncestors.induct g with
  | case1 v =>
    intro x hx
    rw [bfsAncestors]
    exact hx
  | case2 v current rest ih =>
    intro x hx
    rw [bfsAncestors]
    rcases enqueueParents_spec (stepParents g current) v rest with
      ⟨new, heq, hsub, hnot, hcov⟩
    rw [heq] at ih ⊢
    dsimp only at ih ⊢
    exact ih x (List.mem_append.mpr (Or.inl hx))

theorem bfsAncestors_closed (g : RepoGraph) :
    ∀ v q, (∀ x ∈ q, x ∈ v) →
      (∀ c ∈ v, c ∈ q ∨ ∀ p ∈ stepParents g c, p ∈ v) →
      ∀ c ∈ bfsAncestors g v q, ∀ p ∈ stepParents g c,
        p ∈ bfsAncestors g v q := by
  intro v q
  induction v, q using bfsAncestors.induct g with
  | case1 v =>
    intro hq hcl c hc p hp
    rw [bfsAncestors] at hc ⊢
    rcases hcl c hc with h | h
    · simp at h
    · exact h p hp
  | case2 v current rest ih =>
    intro hq hcl c hc p hp
    rw [bfsAncestors] at hc ⊢
    rcases enqueueParents_spec (stepParents g current) v rest with
      ⟨new, heq, hsub, hnot, hcov⟩
    rw [heq] at ih hc ⊢
    dsimp only at ih hc ⊢
    refine ih ?_ ?_ c hc p hp
    · intro y hy
      rcases List.mem_append.mp hy with hy' | hy'
      · exact List.mem_append.mpr (Or.inl (hq y (List.mem_cons_of_mem _ hy')))
      · exact List.mem_append.mpr (Or.inr hy')
    · intro d hd
      rcases List.mem_append.mp hd with hd' | hd'
      · rcases hcl d hd' with h | h
        · rcases List.mem_cons.mp h with rfl | h'
          · exact Or.inr hcov
          · exact Or.inl (List.mem_append.mpr (Or.inl h'))
        · exact Or.inr (fun p' hp' => List.mem_append.mpr (Or.inl (h p' hp')))
      · exact Or.inl (List.mem_append.mpr (Or.inr hd'))

theorem mem_bfsAncestors_iff (g : RepoGraph) (a x : String) :
    x ∈ bfsAncestors g [a] [a] ↔ Reach g a x := by
  constructor
  · intro hx
    refine bfsAncestors_sound g a [a] [a] (fun y hy => hy) ?_ x hx
    intro y hy
    rcases List.mem_singleton.mp hy with rfl
    exact Reach.refl
  · intro hr
    induction hr with
    | refl =>
      exact bfsAncestors_superset g [a] [a] a (List.mem_singleton.mpr rfl)
    | step hc hget hp ih =>
      refine bfsAncestors_closed g [a] [a] (fun y hy => hy) ?_ _ ih _ ?_
      · intro c hc'
        exact Or.inl hc'
      · unfold stepParents
        rw [hget]
        assumption

theorem mergeBaseBFS_sound (g : RepoGraph) (anc1 : List String) (b : String) :
    ∀ v q, (∀ x ∈ q, x ∈ v) → (∀ x ∈ v, Reach g b x) →
      ∀ r, mergeBaseBFS g anc1 v q = some r →
        anc1.contains r = true ∧
        ∃ c gc, Reach g b c ∧ g.commits.get c = some gc ∧ r ∈ gc.parents := by
  intro v q
  induction v, q using mergeBaseBFS.induct g anc1 with
  | case1 v =>
    intro hq hv r hr
    rw [mergeBaseBFS] at hr
    simp at hr
  | case2 v current rest p hscan =>
    intro hq hv r hr
    rw [mergeBaseBFS] at hr
    rw [hscan] at hr
    cases hr
    rcases scanParents_some anc1 (stepParents g current) v rest p hscan with
      ⟨hmem, hanc⟩
    refine ⟨hanc, current, ?_⟩
    unfold stepParents at hmem
    cases hget : g.commits.get current with
    | none => rw [hget] at hmem; simp at hmem
    | some gc =>
      rw [hget] at hmem
      exact ⟨gc, hv current (hq current (List.mem_cons_self _ _)), rfl, hmem⟩
  | case3 v current rest hscan ih =>
    intro hq hv r hr
    rw [mergeBaseBFS] at hr
    rw [hscan] at hr
    dsimp only at hr
    rcases scanParents_none anc1 (stepParents g current) v rest hscan with
      ⟨new, h1, h2, h3, h4, h5, h6, h7⟩
    rw [h1, h2] at hr ih
    refine ih ?_ ?_ r hr
    · intro y hy
      rcases List.mem_append.mp hy with hy' | hy'
      · exact List.mem_append.mpr (Or.inl (hq y (List.mem_cons_of_mem _ hy')))
      · exact List.mem_append.mpr (Or.inr hy')
    · intro y hy
      rcases List.mem_append.mp hy with hy' | hy'
      · exact hv y hy'
      · exact reach_of_stepParents g b current y
          (hv current (hq current (List.mem_cons_self _ _))) (h3 y hy')

theorem mergeBaseBFS_none (g : RepoGraph) (anc1 : List String) :
    ∀ v q, (∀ x ∈ q, x ∈ v) →
      (∀ x ∈ v, anc1.contains x = false) →
      (∀ c ∈ v, c ∈ q ∨ ∀ p ∈ stepParents g c,
        anc1.contains p = false ∧ p ∈ v) →
      mergeBaseBFS g anc1 v q = none →
      ∀ s x, s ∈ v → Reach g s x → anc1.contains x = false := by
  intro v q
  induction v, q using mergeBaseBFS.induct g anc1 with
  | case1 v =>
    intro hq hvanc hcl hres s x hs hr
    have hjoint : x ∈ v ∧ anc1.contains x = false := by
      induction hr with
      | refl => exact ⟨hs, hvanc s hs⟩
      | step hc hget hp ih =>
        rcases ih with ⟨hcv, _⟩
        rcases hcl _ hcv with h | h
        · simp at h
        · have := h _ (by unfold stepParents; rw [hget]; assumption)
          exact ⟨this.2, this.1⟩
    exact hjoint.2
  | case2 v current rest p hscan =>
    intro hq hvanc hcl hres s x hs hr
    rw [mergeBaseBFS] at hres
    rw [hscan] at hres
    simp at hres
  | case3 v current rest hscan ih =>
    intro hq hvanc hcl hres s x hs hr
    rw [mergeBaseBFS] at hres
    rw [hscan] at hres
    dsimp only at hres
    rcases scanParents_none anc1 (stepParents g current) v rest hscan with
      ⟨new, h1, h2, h3, h4, h5, h6, h7⟩
    rw [h1, h2] at hres ih
    refine ih ?_ ?_ ?_ hres s x (List.mem_append.mpr (Or.inl hs)) hr
    · intro y hy
      rcases List.mem_append.mp hy with hy' | hy'
      · exact List.mem_append.mpr (Or.inl (hq y (List.mem_cons_of_mem _ hy')))
      · exact List.mem_append.mpr (Or.inr hy')
    · intro y hy
      rcases List.mem_append.mp hy with hy' | hy'
      · exact hvanc y hy'
      · exact h5 y hy'
    · intro c hc
      rcases List.mem_append.mp hc with hc' | hc'
      · rcases hcl c hc' with h | h
        · rcases List.mem_cons.mp h with rfl | h'
          · refine Or.inr (fun p hp => ⟨h6 p hp, h7 p hp⟩)
          · exact Or.inl (List.mem_append.mpr (Or.inl h'))
        · exact Or.inr (fun p hp =>
            ⟨(h p hp).1, List.mem_append.mpr (Or.inl (h p hp).2)⟩)
      · exact Or.inl (List.mem_append.mpr (Or.inr hc'))

/-- C4: `findMergeBase(graph, a, b)` returns `b` when `b` equals `a` or is an
ancestor of `a` (the `Reach` closure: ancestors through parents of loaded
commits, boundary parents included); any other non-null result is a common
ancestor of `a` and `b` obtained as a parent, found by the BFS from `b`, that
lies in the set of `a` and `a`'s ancestors; and the result is null exactly
when `a` and `b` have no common ancestor in that closure.  (Which qualifying
parent is returned — the first encountered — is fixed by the embedded
algorithm itself.) -/
theorem c4_findMergeBase (g : RepoGraph) (a b : String) :
    (Reach g a b → findMergeBase g a b = some b) ∧
    (∀ r, findMergeBase g a b = some r →
      Reach g a r ∧ Reach g b r ∧
      (r ≠ b → ∃ c gc, Reach g b c ∧ g.commits.get c = some gc ∧
        r ∈ gc.parents)) ∧
    (findMergeBase g a b = none ↔ ∀ x, ¬ (Reach g a x ∧ Reach g b x)) := by
  have hpart2 : ∀ r, findMergeBase g a b = some r →
      Reach g a r ∧ Reach g b r ∧
      (r ≠ b → ∃ c gc, Reach g b c ∧ g.commits.get c = some gc ∧
        r ∈ gc.parents) := by
    intro r hres
    unfold findMergeBase at hres
    by_cases hb : (bfsAncestors g [a] [a]).contains b = true
    · rw [if_pos hb] at hres
      cases hres
      refine ⟨(mem_bfsAncestors_iff g a b).mp ((containsStr_iff _ _).mp hb),
        Reach.refl, ?_⟩
      intro hne
      exact absurd rfl hne
    · rw [if_neg hb] at hres
      have hsound := mergeBaseBFS_sound g (bfsAncestors g [a] [a]) b [b] [b]
        (fun x hx => hx)
        (fun x hx => by rcases List.mem_singleton.mp hx with rfl; exact Reach.refl)
        r hres
      rcases hsound with ⟨hanc, c, gc, hrc, hget, hp⟩
      exact ⟨(mem_bfsAncestors_iff g a r).mp ((containsStr_iff _ _).mp hanc),
        Reach.step hrc hget hp, fun _ => ⟨c, gc, hrc, hget, hp⟩⟩
  refine ⟨?_, hpart2, ?_, ?_⟩
  · intro hr
    unfold findMergeBase
    rw [if_pos ((containsStr_iff _ _).mpr ((mem_bfsAncestors_iff g a b).mpr hr))]
  · intro hnone x hcommon
    rcases hcommon with ⟨hax, hbx⟩
    unfold findMergeBase at hnone
    by_cases hb : (bfsAncestors g [a] [a]).contains b = true
    · rw [if_pos hb] at hnone
      simp at hnone
    · rw [if_neg hb] at hnone
      have hbfalse : (bfsAncestors g [a] [a]).contains b = false := by
        simpa using hb
      have hvanc : ∀ y ∈ [b], (bfsAncestors g [a] [a]).contains y = false := by
        intro y hy
        rcases List.mem_singleton.mp hy with rfl
        exact hbfalse
      have hxfalse := mergeBaseBFS_none g (bfsAncestors g [a] [a]) [b] [b]
        (fun y hy => hy) hvanc (fun c hc => Or.inl hc) hnone b x
        (List.mem_singleton.mpr rfl) hbx
      have hxtrue : (bfsAncestors g [a] [a]).contains x = true :=
        (containsStr_iff _ _).mpr ((mem_bfsAncestors_iff g a x).mpr hax)
      rw [hxfalse] at hxtrue
      exact absurd hxtrue (by simp)
  · intro hno
    cases hres : findMergeBase g a b with
    | none => rfl
    | some r =>
      rcases hpart2 r hres with ⟨har, hbr, _⟩
      exact absurd ⟨har, hbr⟩ (hno r)

/-- The diamond graph used as the concrete instance for `findMergeBase`. -/
def c4Graph : RepoGraph :=
  { commits := ⟨[("a", ⟨[]⟩), ("b", ⟨["a"]⟩), ("c", ⟨["a"]⟩),
      ("d", ⟨["b", "c"]⟩)]⟩
    children := JsMap.empty
    refsByCommit := JsMap.empty
    head := none
    topologicalOrder := ["a", "b", "c", "d"] }

/-- Witness for `c4_findMergeBase`: on the diamond, the merge base of `d` and
its ancestor `b` is `b` (the ancestry hypothesis discharged by the `Reach`
constructors on the concrete graph). -/
theorem c4_findMergeBase_witness :
    findMergeBase c4Graph "d" "b" = some "b" :=
  (c4_findMergeBase c4Graph "d" "b").1
    (Reach.step Reach.refl (by decide : c4Graph.commits.get "d" =
      some ⟨["b", "c"]⟩) (by decide))

/-! ### Theorems for claim C7 (edge crossing detector) -/

/-- C7 (amended): `edgesCross` reports a crossing iff the row spans overlap
under the code's strict-inequality test (each span's maximum strictly exceeds
the other's minimum), both lane directions are nonzero, the lane spans
overlap under the same test, and the lane-direction signs differ; in
particular a vertical-only edge (zero lane span) never crosses.  (A
horizontal-only edge — zero row span — CAN cross when its row lies strictly
inside the other edge's row span; see the counterexample.) -/
theorem c7_edgesCross_characterization (e1 e2 : VisualEdge) :
    (edgesCross e1 e2 = true ↔
      (min e2.fromRow e2.toRow < max e1.fromRow e1.toRow ∧
       min e1.fromRow e1.toRow < max e2.fromRow e2.toRow ∧
       e1.toLane - e1.fromLane ≠ 0 ∧ e2.toLane - e2.fromLane ≠ 0 ∧
       min e2.fromLane e2.toLane < max e1.fromLane e1.toLane ∧
       min e1.fromLane e1.toLane < max e2.fromLane e2.toLane ∧
       ¬ ((0 < e1.toLane - e1.fromLane) ↔ (0 < e2.toLane - e2.fromLane)))) ∧
    ((e1.fromLane = e1.toLane ∨ e2.fromLane = e2.toLane) →
      edgesCross e1 e2 = false) := by
  constructor
  · unfold edgesCross
    split_ifs with h1 h2 h3
    · simp only [Bool.false_eq_true, false_iff]
      rintro ⟨ha, hb, -⟩
      rcases h1 with h1 | h1
      · exact absurd ha (not_lt.mpr h1)
      · exact absurd hb (not_lt.mpr h1)
    · simp only [Bool.false_eq_true, false_iff]
      rintro ⟨-, -, hd1, hd2, -⟩
      rcases h2 with h2 | h2
      · exact hd1 h2
      · exact hd2 h2
    · simp only [Bool.false_eq_true, false_iff]
      rintro ⟨-, -, -, -, ha, hb, -⟩
      rcases h3 with h3 | h3
      · exact absurd ha (not_lt.mpr h3)
      · exact absurd hb (not_lt.mpr h3)
    · push_neg at h1 h2 h3
      constructor
      · intro hb
        refine ⟨h1.1, h1.2, h2.1, h2.2, h3.1, h3.2, ?_⟩
        by_cases c1 : 0 < e1.toLane - e1.fromLane <;>
          by_cases c2 : 0 < e2.toLane - e2.fromLane <;>
          simp [c1, c2] at hb ⊢
      · rintro ⟨-, -, -, -, -, -, hsign⟩
        by_cases c1 : 0 < e1.toLane - e1.fromLane <;>
          by_cases c2 : 0 < e2.toLane - e2.fromLane <;>
          simp [c1, c2] at hsign ⊢
  · intro hv
    unfold edgesCross
    split_ifs with h1 h2 h3
    · rfl
    · rfl
    · rfl
    · exfalso
      rcases hv with hv | hv
      · exact h2 (Or.inl (by omega))
      · exact h2 (Or.inr (by omega))

/-- A horizontal-only edge (zero row span) for the C7 counterexample. -/
def horizEdge : VisualEdge :=
  { id := "h", fromHash := "x", toHash := "y", fromRow := 5, fromLane := 0,
    toRow := 5, toLane := 2, type := EdgeType.merge, parentIndex := 1 }

/-- A tall opposing edge for the C7 counterexample. -/
def tallEdge : VisualEdge :=
  { id := "t", fromHash := "u", toHash := "v", fromRow := 0, fromLane := 2,
    toRow := 10, toLane := 0, type := EdgeType.fork, parentIndex := 0 }

/-- C7, counterexample: the claim also asserts that an edge with zero row
span (horizontal-only) never crosses; but a horizontal edge whose row lies
strictly inside the other edge's row span passes the code's row-overlap
test, so these two edges cross. -/
theorem c7_horizontal_edge_counterexample :
    horizEdge.fromRow = horizEdge.toRow ∧
    edgesCross horizEdge tallEdge = true := by
  refine ⟨by decide, by decide⟩

/-! ### Theorems for claim C5 (bounding box) -/

/-- Both lane endpoints of every edge, in order. -/
def edgeLanes (edges : List VisualEdge) : List Int :=
  edges.foldr (fun e acc => e.fromLane :: e.toLane :: acc) []

/-- Both row endpoints of every edge, in order (used by the spec-side
bounding box). -/
def edgeRows (edges : List VisualEdge) : List Int :=
  edges.foldr (fun e acc => e.fromRow :: e.toRow :: acc) []

theorem foldl_foldMin_isSome (xs : List Int) :
    ∀ v, (xs.foldl foldMin (some v)).isSome = true := by
  induction xs with
  | nil => intro v; rfl
  | cons x xs ih => intro v; exact ih (min v x)

theorem foldl_foldMax_isSome (xs : List Int) :
    ∀ v, (xs.foldl foldMax (some v)).isSome = true := by
  induction xs with
  | nil => intro v; rfl
  | cons x xs ih => intro v; exact ih (max v x)

theorem foldl_foldMin_spec (xs : List Int) :
    ∀ acc r, xs.foldl foldMin acc = some r →
      (acc = some r ∨ r ∈ xs) ∧ (∀ a, acc = some a → r ≤ a) ∧
        ∀ x ∈ xs, r ≤ x := by
  induction xs with
  | nil =>
    intro acc r h
    rw [List.foldl_nil] at h
    refine ⟨Or.inl h, ?_, by simp⟩
    intro a ha
    rw [h] at ha
    cases ha
    exact le_refl _
  | cons x xs ih =>
    intro acc r h
    rw [List.foldl_cons] at h
    rcases ih (foldMin acc x) r h with ⟨hmem, hacc, hbound⟩
    have hstep : ∀ a, acc = some a → foldMin acc x = some (min a x) := by
      intro a ha
      rw [ha]
      rfl
    have hxle : r ≤ x := by
      cases hacc0 : acc with
      | none =>
        have hfx : foldMin acc x = some x := by rw [hacc0]; rfl
        exact hacc x hfx
      | some v =>
        exact le_trans (hacc (min v x) (hstep v hacc0)) (min_le_right _ _)
    have haccle : ∀ a, acc = some a → r ≤ a := by
      intro a ha
      exact le_trans (hacc (min a x) (hstep a ha)) (min_le_left _ _)
    have hboundall : ∀ y ∈ x :: xs, r ≤ y := by
      intro y hy
      rcases List.mem_cons.mp hy with rfl | hy'
      · exact hxle
      · exact hbound y hy'
    refine ⟨?_, haccle, hboundall⟩
    rcases hmem with hm | hm
    · cases hacc0 : acc with
      | none =>
        have hfx : foldMin acc x = some x := by rw [hacc0]; rfl
        rw [hfx] at hm
        cases hm
        exact Or.inr (List.mem_cons_self _ _)
      | some v =>
        rw [hstep v hacc0] at hm
        cases hm
        rcases min_choice v x with hc | hc
        · exact Or.inl (congrArg some hc.symm)

        · exact Or.inr (by rw [hc]; exact List.mem_cons_self _ _)
    · exact Or.inr (List.mem_cons_of_mem _ hm)

theorem foldl_foldMax_spec (xs : List Int) :
    ∀ acc r, xs.foldl foldMax acc = some r →
      (acc = some r ∨ r ∈ xs) ∧ (∀ a, acc = some a → a ≤ r) ∧
        ∀ x ∈ xs, x ≤ r := by
  induction xs with
  | nil =>
    intro acc r h
    rw [List.foldl_nil] at h
    refine ⟨Or.inl h, ?_, by simp⟩
    intro a ha
    rw [h] at ha
    cases ha
    exact le_refl _
  | cons x xs ih =>
    intro acc r h
    rw [List.foldl_cons] at h
    rcases ih (foldMax acc x) r h with ⟨hmem, hacc, hbound⟩
    have hstep : ∀ a, acc = some a → foldMax acc x = some (max a x) := by
      intro a ha
      rw [ha]
      rfl
    have hxle : x ≤ r := by
      cases hacc0 : acc with
      | none =>
        have hfx : foldMax acc x = some x := by rw [hacc0]; rfl
        exact hacc x hfx
      | some v =>
        exact le_trans (le_max_right v x) (hacc (max v x) (hstep v hacc0))
    have haccle : ∀ a, acc = some a → a ≤ r := by
      intro a ha
      exact le_trans (le_max_left a x) (hacc (max a x) (hstep a ha))
    have hboundall : ∀ y ∈ x :: xs, y ≤ r := by
      intro y hy
      rcases List.mem_cons.mp hy with rfl | hy'
      · exact hxle
      · exact hbound y hy'
    refine ⟨?_, haccle, hboundall⟩
    rcases hmem with hm | hm
    · cases hacc0 : acc with
      | none =>
        have hfx : foldMax acc x = some x := by rw [hacc0]; rfl
        rw [hfx] at hm
        cases hm
        exact Or.inr (List.mem_cons_self _ _)
      | some v =>
        rw [hstep v hacc0] at hm
        cases hm
        rcases max_choice v x with hc | hc
        · exact Or.inl (congrArg some hc.symm)
        · exact Or.inr (by rw [hc]; exact List.mem_cons_self _ _)
    · exact Or.inr (List.mem_cons_of_mem _ hm)

theorem foldl_commits_eq_map_min (commits : List VisualCommit)
    (f : VisualCommit → Int) (acc : Option Int) :
    commits.foldl (fun a c => foldMin a (f c)) acc =
      (commits.map f).foldl foldMin acc := by
  rw [List.foldl_map]

theorem foldl_commits_eq_map_max (commits : List VisualCommit)
    (f : VisualCommit → Int) (acc : Option Int) :
    commits.foldl (fun a c => foldMax a (f c)) acc =
      (commits.map f).foldl foldMax acc := by
  rw [List.foldl_map]

theorem foldl_edges_eq_lanes_min (edges : List VisualEdge) :
    ∀ acc, edges.foldl (fun a e => foldMin (foldMin a e.fromLane) e.toLane) acc =
      (edgeLanes edges).foldl foldMin acc := by
  induction edges with
  | nil => intro acc; rfl
  | cons e es ih =>
    intro acc
    rw [List.foldl_cons]
    unfold edgeLanes
    rw [List.foldr_cons, List.foldl_cons, List.foldl_cons]
    exact ih _

theorem foldl_edges_eq_lanes_max (edges : List VisualEdge) :
    ∀ acc, edges.foldl (fun a e => foldMax (foldMax a e.fromLane) e.toLane) acc =
      (edgeLanes edges).foldl foldMax acc := by
  induction edges with
  | nil => intro acc; rfl
  | cons e es ih =>
    intro acc
    rw [List.foldl_cons]
    unfold edgeLanes
    rw [List.foldr_cons, List.foldl_cons, List.foldl_cons]
    exact ih _

theorem foldl_foldMin_none_isSome (xs : List Int) (h : xs ≠ []) :
    (xs.foldl foldMin none).isSome = true := by
  cases xs with
  | nil => exact absurd rfl h
  | cons x xs =>
    rw [List.foldl_cons]
    exact foldl_foldMin_isSome xs x

theorem foldl_foldMax_none_isSome (xs : List Int) (h : xs ≠ []) :
    (xs.foldl foldMax none).isSome = true := by
  cases xs with
  | nil => exact absurd rfl h
  | cons x xs =>
    rw [List.foldl_cons]
    exact foldl_foldMax_isSome xs x

/-- C5 (amended): `getBoundingBox` returns the all-zero box for an empty
commit list regardless of the edges; otherwise its ROW bounds are the
min/max of the commit rows alone (edge endpoints do NOT contribute to the
row bounds), while its LANE bounds are the min/max over the commit lanes
together with both lane endpoints of every edge. -/
theorem c5_getBoundingBox (commits : List VisualCommit)
    (edges : List VisualEdge) :
    (commits = [] → getBoundingBox commits edges =
      { minRow := 0, maxRow := 0, minLane := 0, maxLane := 0 }) ∧
    (commits ≠ [] →
      ((getBoundingBox commits edges).minRow ∈ commits.map (fun c => c.row) ∧
        ∀ r ∈ commits.map (fun c => c.row),
          (getBoundingBox commits edges).minRow ≤ r) ∧
      ((getBoundingBox commits edges).maxRow ∈ commits.map (fun c => c.row) ∧
        ∀ r ∈ commits.map (fun c => c.row),
          r ≤ (getBoundingBox commits edges).maxRow) ∧
      ((getBoundingBox commits edges).minLane ∈
          commits.map (fun c => c.lane) ++ edgeLanes edges ∧
        ∀ x ∈ commits.map (fun c => c.lane) ++ edgeLanes edges,
          (getBoundingBox commits edges).minLane ≤ x) ∧
      ((getBoundingBox commits edges).maxLane ∈
          commits.map (fun c => c.lane) ++ edgeLanes edges ∧
        ∀ x ∈ commits.map (fun c => c.lane) ++ edgeLanes edges,
          x ≤ (getBoundingBox commits edges).maxLane)) := by
  constructor
  · intro h
    subst h
    rfl
  · intro hne
    have hne' : ¬ (commits.isEmpty = true) := by
      cases commits with
      | nil => exact absurd rfl hne
      | cons c cs => simp
    have hbb : getBoundingBox commits edges =
        { minRow := ((commits.map (fun c => c.row)).foldl foldMin none).getD 0
          maxRow := ((commits.map (fun c => c.row)).foldl foldMax none).getD 0
          minLane := ((commits.map (fun c => c.lane) ++ edgeLanes edges).foldl
            foldMin none).getD 0
          maxLane := ((commits.map (fun c => c.lane) ++ edgeLanes edges).foldl
            foldMax none).getD 0 } := by
      unfold getBoundingBox
      rw [if_neg hne']
      rw [foldl_commits_eq_map_min commits (fun c => c.row) none]
      rw [foldl_commits_eq_map_max commits (fun c => c.row) none]
      rw [foldl_commits_eq_map_min commits (fun c => c.lane) none]
      rw [foldl_commits_eq_map_max commits (fun c => c.lane) none]
      dsimp only
      rw [foldl_edges_eq_lanes_min edges]
      rw [foldl_edges_eq_lanes_max edges]
      rw [← List.foldl_append]
      rw [← List.foldl_append]
    have hrowsne : commits.map (fun c => c.row) ≠ [] := by
      cases commits with
      | nil => exact absurd rfl hne
      | cons c cs => simp
    have hlanesne : commits.map (fun c => c.lane) ++ edgeLanes edges ≠ [] := by
      cases commits with
      | nil => exact absurd rfl hne
      | cons c cs => simp
    rw [hbb]
    dsimp only
    refine ⟨?_, ?_, ?_, ?_⟩
    · rcases Option.isSome_iff_exists.mp
        (foldl_foldMin_none_isSome _ hrowsne) with ⟨r, hr⟩
      rw [hr]
      rcases foldl_foldMin_spec _ _ _ hr with ⟨hmem, _, hbound⟩
      rcases hmem with hm | hm
      · cases hm
      · exact ⟨hm, hbound⟩
    · rcases Option.isSome_iff_exists.mp
        (foldl_foldMax_none_isSome _ hrowsne) with ⟨r, hr⟩
      rw [hr]
      rcases foldl_foldMax_spec _ _ _ hr with ⟨hmem, _, hbound⟩
      rcases hmem with hm | hm
      · cases hm
      · exact ⟨hm, hbound⟩
    · rcases Option.isSome_iff_exists.mp
        (foldl_foldMin_none_isSome _ hlanesne) with ⟨r, hr⟩
      rw [hr]
      rcases foldl_foldMin_spec _ _ _ hr with ⟨hmem, _, hbound⟩
      rcases hmem with hm | hm
      · cases hm
      · exact ⟨hm, hbound⟩
    · rcases Option.isSome_iff_exists.mp
        (foldl_foldMax_none_isSome _ hlanesne) with ⟨r, hr⟩
      rw [hr]
      rcases foldl_foldMax_spec _ _ _ hr with ⟨hmem, _, hbound⟩
      rcases hmem with hm | hm
      · cases hm
      · exact ⟨hm, hbound⟩

/-- Modelled from the claim's words (for comparison only): the bounding box
in which edge endpoints contribute to the ROW bounds as well as the lane
bounds. -/
def specBoundingBoxClaim (commits : List VisualCommit)
    (edges : List VisualEdge) : BoundingBox :=
  if commits.isEmpty then
    { minRow := 0, maxRow := 0, minLane := 0, maxLane := 0 }
  else
    { minRow := (edges.foldl (fun a e => foldMin (foldMin a e.fromRow) e.toRow)
        (commits.foldl (fun a c => foldMin a c.row) none)).getD 0
      maxRow := (edges.foldl (fun a e => foldMax (foldMax a e.fromRow) e.toRow)
        (commits.foldl (fun a c => foldMax a c.row) none)).getD 0
      minLane := (edges.foldl (fun a e => foldMin (foldMin a e.fromLane) e.toLane)
        (commits.foldl (fun a c => foldMin a c.lane) none)).getD 0
      maxLane := (edges.foldl (fun a e => foldMax (foldMax a e.fromLane) e.toLane)
        (commits.foldl (fun a c => foldMax a c.lane) none)).getD 0 }

/-- The single commit (row 0, lane 0) of the C5 counterexample. -/
def c5Commit : VisualCommit :=
  { hash := "c", row := 0, lane := 0, isMerge := false, isBranchTip := false,
    isRoot := true, isHead := false, refs := [], edgeIds := [] }

/-- An edge spanning rows 5..7 (both beyond every commit row) for the C5
counterexample. -/
def c5Edge : VisualEdge :=
  { id := "e", fromHash := "c", toHash := "z", fromRow := 5, fromLane := 0,
    toRow := 7, toLane := 0, type := EdgeType.straight, parentIndex := 0 }

/-- C5, counterexample: the claim says edge endpoints contribute to the row
bounds; the code ignores edge rows, so with one commit at row 0 and an edge
spanning rows 5..7 the computed `maxRow` is 0, not the 7 the claim's
componentwise min/max would give. -/
theorem c5_edge_rows_counterexample :
    (getBoundingBox [c5Commit] [c5Edge]).maxRow = 0 ∧ c5Edge.toRow = 7 ∧
    getBoundingBox [c5Commit] [c5Edge] ≠
      specBoundingBoxClaim [c5Commit] [c5Edge] := by
  refine ⟨by decide, by decide, by decide⟩

/-- Witness for `c5_getBoundingBox` at concrete inputs (the empty-commit case
and the one-commit case). -/
theorem c5_getBoundingBox_witness :
    getBoundingBox ([] : List VisualCommit) [c5Edge] =
      { minRow := 0, maxRow := 0, minLane := 0, maxLane := 0 } ∧
    (getBoundingBox [c5Commit] [c5Edge]).minRow ∈
      [c5Commit].map (fun c => c.row) :=
  ⟨(c5_getBoundingBox [] [c5Edge]).1 rfl,
    (((c5_getBoundingBox [c5Commit] [c5Edge]).2 (by decide)).1).1⟩

/-! ### Theorems for claim C6 (lane optimizer idempotence) -/

/-- A bare edge carrying only geometry (for optimizer instances). -/
def c6Edge (id : String) (fr tr fl tl : Int) : VisualEdge :=
  { id := id, fromHash := "", toHash := "", fromRow := fr, fromLane := fl,
    toRow := tr, toLane := tl, type := EdgeType.fork, parentIndex := 0 }

/-- A three-edge, four-lane visual graph on which `optimizeLanes` is NOT a
fixed point on its own output: the first run applies the lane swap 1↔2
(leaving one crossing), and a second run still finds the improving swap 2↔3
(reaching zero crossings) because the greedy loop only ever compares
input-side adjacent transpositions of the accumulated mapping against the
initial crossing count. -/
def c6Graph : VisualGraph :=
  { commits := []
    edges := [c6Edge "e1" 1 0 1 3, c6Edge "e2" 0 1 2 0, c6Edge "e3" 0 1 3 2]
    totalRows := 0
    totalLanes := 4
    commitByHash := JsMap.empty
    commitByRow := JsMap.empty
    edgeById := JsMap.empty
    activeLanesAtRow := JsMap.empty }

/-- C6, counterexample: running `optimizeLanes` twice on `c6Graph` yields a
different visual graph than running it once (both runs terminate well within
the given fuel), so `optimizeLanes` is not a fixed point on its own
output. -/
theorem c6_optimizeLanes_counterexample :
    ((optimizeLanesFuel 10 c6Graph).bind (optimizeLanesFuel 10)).isSome = true ∧
    (optimizeLanesFuel 10 c6Graph).bind (optimizeLanesFuel 10) ≠
      optimizeLanesFuel 10 c6Graph := by
  refine ⟨by decide, by decide⟩

/-- C6 (amended): `optimizeLanes` is a fixed point on its own output whenever
that output has zero crossings (the zero-crossing check returns the graph
unchanged, with any fuel); on outputs that still have crossings a second run
may change the graph again, as the counterexample shows, because the greedy
loop compares candidate mappings against the stale initial crossing count
and only explores input-side adjacent swaps. -/
theorem c6_optimizeLanes_zero_crossing_fixed (g g' : VisualGraph) (n n' : Nat)
    (h : optimizeLanesFuel n g = some g')
    (hc : countCrossings g'.edges = 0) :
    optimizeLanesFuel n' g' = some g' := by
  unfold optimizeLanesFuel
  simp [hc]

/-- A crossing-free one-edge graph for the C6 witness. -/
def c6ZeroGraph : VisualGraph :=
  { commits := []
    edges := [c6Edge "e1" 0 1 0 0]
    totalRows := 0
    totalLanes := 1
    commitByHash := JsMap.empty
    commitByRow := JsMap.empty
    edgeById := JsMap.empty
    activeLanesAtRow := JsMap.empty }

/-- Witness for `c6_optimizeLanes_zero_crossing_fixed` on a concrete
crossing-free graph. -/
theorem c6_optimizeLanes_zero_crossing_fixed_witness :
    optimizeLanesFuel 5 c6ZeroGraph = some c6ZeroGraph :=
  c6_optimizeLanes_zero_crossing_fixed c6ZeroGraph c6ZeroGraph 5 5
    (by decide) (by decide)

/-! ### Layout invariants: helper lemmas for claims C2, C3 and C9 -/

theorem allocateLane_activeLanes (st : LaneState) :
    (allocateLane st).2.activeLanes = st.activeLanes := by
  unfold allocateLane
  cases st.freeLanes <;> rfl

theorem freeLane_activeLanes (st : LaneState) (lane : Int) :
    (freeLane st lane).activeLanes = st.activeLanes.delete lane := rfl

theorem processParents_activeLanes (hash : String) (row : Nat) (lane : Int)
    (k : Nat) :
    ∀ (ps : List String) (i : Nat) (st : LaneState),
      (processParents hash row lane k ps i st).1.activeLanes =
        st.activeLanes := by
  intro ps
  induction ps with
  | nil => intro i st; rfl
  | cons p rest ih =>
    intro i st
    simp only [processParents]
    rw [ih]
    cases hg : st.laneByCommit.get p with
    | some pl => rfl
    | none =>
      dsimp only
      by_cases hi : i = 0
      · rw [if_pos hi]
      · rw [if_neg hi]
        dsimp only
        exact allocateLane_activeLanes st

/-- The type of a constructed edge is `merge` exactly when the source commit
has several parents and the edge goes to a later parent. -/
theorem mkEdge_type_merge_decide (hash p : String) (row : Nat)
    (lane pl : Int) (k i : Nat) :
    decide ((mkEdge hash p row lane pl k i).type = EdgeType.merge) =
      decide (1 < k ∧ 0 < i) := by
  by_cases hc : 1 < k ∧ 0 < i
  · have ht : (mkEdge hash p row lane pl k i).type = EdgeType.merge := by
      show (if 1 < k ∧ 0 < i then EdgeType.merge
        else if lane ≠ pl then EdgeType.fork else EdgeType.straight) =
          EdgeType.merge
      rw [if_pos hc]
    rw [ht, decide_eq_true hc, decide_eq_true rfl]
  · have ht : (mkEdge hash p row lane pl k i).type ≠ EdgeType.merge := by
      show (if 1 < k ∧ 0 < i then EdgeType.merge
        else if lane ≠ pl then EdgeType.fork else EdgeType.straight) ≠
          EdgeType.merge
      rw [if_neg hc]
      by_cases hl : lane ≠ pl
      · rw [if_pos hl]; exact fun h => EdgeType.noConfusion h
      · rw [if_neg hl]; exact fun h => EdgeType.noConfusion h
    rw [decide_eq_false hc, decide_eq_false ht]

/-- Shape of every edge emitted by the parent loop: it starts at the current
commit and row, has the `-1` target-row placeholder, a parent index in the
processed range, and the merge/fork/straight type rule. -/
theorem processParents_mem_spec (hash : String) (row : Nat) (lane : Int)
    (k : Nat) :
    ∀ (ps : List String) (i : Nat) (st : LaneState),
      ∀ e ∈ (processParents hash row lane k ps i st).2,
        e.fromHash = hash ∧ e.fromRow = (row : Int) ∧ e.toRow = -1 ∧
          e.fromLane = lane ∧ i ≤ e.parentIndex ∧
          e.parentIndex < i + ps.length ∧
          e.type = (if 1 < k ∧ 0 < e.parentIndex then EdgeType.merge
            else if e.fromLane ≠ e.toLane then EdgeType.fork
            else EdgeType.straight) := by
  intro ps
  induction ps with
  | nil => intro i st e he; simp [processParents] at he
  | cons p rest ih =>
    intro i st e he
    simp only [processParents] at he
    rcases List.mem_cons.mp he with rfl | hmem
    · refine ⟨rfl, rfl, rfl, rfl, Nat.le_refl i, ?_, rfl⟩
      show i < i + (rest.length + 1)
      omega
    · obtain ⟨h1, h2, h3, h4, h5, h6, h7⟩ := ih (i + 1) _ e hmem
      exact ⟨h1, h2, h3, h4, Nat.le_trans (Nat.le_succ i) h5, by
        simp only [List.length_cons]; omega, h7⟩

/-- The number of merge-typed edges the parent loop emits equals the number
of processed parent indices `j` with `1 < k ∧ 0 < j`. -/
theorem processParents_countP_merge (hash : String) (row : Nat) (lane : Int)
    (k : Nat) :
    ∀ (ps : List String) (i : Nat) (st : LaneState),
      (processParents hash row lane k ps i st).2.countP
          (fun e => decide (e.type = EdgeType.merge)) =
        (List.range' i ps.length).countP (fun j => decide (1 < k ∧ 0 < j)) := by
  intro ps
  induction ps with
  | nil => intro i st; rfl
  | cons p rest ih =>
    intro i st
    simp only [processParents, List.length_cons, List.range'_succ,
      List.countP_cons]
    rw [ih, mkEdge_type_merge_decide]

theorem countP_range'_pos (k : Nat) (hk : 1 < k) :
    ∀ (n i : Nat), 0 < i →
      (List.range' i n).countP (fun j => decide (1 < k ∧ 0 < j)) = n := by
  intro n
  induction n with
  | zero => intro i _; rfl
  | succ n ih =>
    intro i hi
    rw [List.range'_succ, List.countP_cons, ih (i + 1) (Nat.succ_pos i)]
    have hd : decide (1 < k ∧ 0 < i) = true := decide_eq_true ⟨hk, hi⟩
    rw [hd, if_pos rfl]

/-- Over all parent indices `0 .. k-1`, exactly `k - 1` satisfy the merge
condition. -/
theorem countP_range_merge (k : Nat) :
    (List.range' 0 k).countP (fun j => decide (1 < k ∧ 0 < j)) = k - 1 := by
  cases k with
  | zero => rfl
  | succ k =>
    cases k with
    | zero => rfl
    | succ n =>
      rw [List.range'_succ, List.countP_cons,
        countP_range'_pos (n + 2) (by omega) (n + 1) 1 (by omega)]
      have hd : decide (1 < n + 2 ∧ 0 < 0) = false :=
        decide_eq_false (by omega)
      rw [hd]
      simp

/-- The second pass changes only an edge's `toRow`. -/
theorem fillToRow_eta (m : JsMap String VisualCommit) (e : VisualEdge) :
    ∃ t, fillToRow m e = { e with toRow := t } := by
  unfold fillToRow
  cases m.get e.toHash with
  | none => exact ⟨e.toRow, rfl⟩
  | some pc => exact ⟨pc.row, rfl⟩

/-- A duplicate-free lane list sorts to a strictly ascending list. -/
theorem sortedLanes_pairwise_lt (l : List Int) (h : l.Nodup) :
    (sortedLanes l).Pairwise (· < ·) := by
  have hs : (sortedLanes l).Sorted (· ≤ ·) :=
    List.sorted_insertionSort (· ≤ ·) l
  have hp : (sortedLanes l).Perm l := List.perm_insertionSort (· ≤ ·) l
  have hn : (sortedLanes l).Nodup := (hp.nodup_iff).mpr h
  exact List.Sorted.lt_of_le hs hn

theorem mem_sortedLanes (l : List Int) (a : Int) (ha : a ∈ l) :
    a ∈ sortedLanes l :=
  ((List.perm_insertionSort (· ≤ ·) l).mem_iff).mpr ha

/-- The dedup-by-id fold of `getVisibleEdges`, run over edges whose ids are
fresh and pairwise distinct, appends exactly the overlap-filtered edges. -/
theorem getVisibleEdges_fold (s t : Int) :
    ∀ (l : List VisualEdge) (acc : List VisualEdge) (seen : List String),
      (∀ e ∈ l, e.id ∉ seen) → (l.map (fun e => e.id)).Nodup →
      (l.foldl
        (fun (acc : List VisualEdge × List String) edge =>
          if acc.2.contains edge.id then acc
          else if s ≤ max edge.fromRow edge.toRow ∧
              min edge.fromRow edge.toRow ≤ t then
            (acc.1 ++ [edge], acc.2 ++ [edge.id])
          else acc)
        (acc, seen)).1 =
      acc ++ l.filter (fun e => decide (s ≤ max e.fromRow e.toRow ∧
        min e.fromRow e.toRow ≤ t)) := by
  intro l
  induction l with
  | nil => intro acc seen _ _; simp
  | cons e rest ih =>
    intro acc seen hseen hnd
    rw [List.foldl_cons]
    have hc : seen.contains e.id = false := by
      cases h : seen.contains e.id with
      | false => rfl
      | true =>
        exact absurd ((containsStr_iff seen e.id).mp h)
          (hseen e (List.mem_cons_self e rest))
    rw [hc]
    simp only [Bool.false_eq_true, if_false]
    have hndh : e.id ∉ rest.map (fun e => e.id) :=
      (List.nodup_cons.mp (by simpa using hnd)).1
    have hndt : (rest.map (fun e => e.id)).Nodup :=
      (List.nodup_cons.mp (by simpa using hnd)).2
    by_cases hp : s ≤ max e.fromRow e.toRow ∧ min e.fromRow e.toRow ≤ t
    · rw [if_pos hp]
      have hseen2 : ∀ e2 ∈ rest, e2.id ∉ seen ++ [e.id] := by
        intro e2 he2 hmem
        rcases List.mem_append.mp hmem with h | h
        · exact hseen e2 (List.mem_cons_of_mem e he2) h
        · exact hndh (List.mem_singleton.mp h ▸ List.mem_map_of_mem _ he2)
      rw [ih (acc ++ [e]) (seen ++ [e.id]) hseen2 hndt]
      simp only [List.filter_cons]
      rw [decide_eq_true hp, if_pos rfl, List.append_assoc]
      rfl
    · rw [if_neg hp]
      have hseen2 : ∀ e2 ∈ rest, e2.id ∉ seen :=
        fun e2 he2 => hseen e2 (List.mem_cons_of_mem e he2)
      rw [ih acc seen hseen2 hndt]
      simp only [List.filter_cons]
      rw [decide_eq_false hp]
      simp only [Bool.false_eq_true, if_false]

/-- Under pairwise-distinct edge ids, `getVisibleEdges` is exactly the
row-span-overlap filter of the edge list. -/
theorem getVisibleEdges_eq_filter (g : VisualGraph) (s t : Int)
    (h : (g.edges.map (fun e => e.id)).Nodup) :
    getVisibleEdges g s t =
      g.edges.filter (fun e => decide (s ≤ max e.fromRow e.toRow ∧
        min e.fromRow e.toRow ≤ t)) := by
  unfold getVisibleEdges
  exact (getVisibleEdges_fold s t g.edges [] []
    (fun e _ => List.not_mem_nil e.id) h).trans (List.nil_append _)

/-! ### Claim C2: active lane snapshots -/

/-- Invariant maintained by the row loop: active-lane bookkeeping has
duplicate-free keys, and every recorded per-row snapshot is strictly
ascending and contains the row's commit's lane whenever that lane is not
positive (only positive lanes can be freed just before the snapshot). -/
def LanesInv (bs : BuildState) : Prop :=
  bs.st.activeLanes.NodupKeys ∧
  ∀ r l, bs.activeLanesAtRow.get r = some l →
    l.Pairwise (· < ·) ∧
    ∀ c, bs.commitByRow.get r = some c → c.lane ∈ l ∨ 0 < c.lane

/-- Core step of the C2 invariant: the tail of `processRow` (after the lane
for the commit has been chosen) preserves `LanesInv`.  `st1` stands for the
lane state after the choice (either `bs.st` or the allocation result); only
its `activeLanes` being that of `bs.st` matters. -/
theorem lanesInv_step (graph : RepoGraph) (opts : LayoutOptions) (row : Nat)
    (hash : String) (bs : BuildState) (commit : GraphCommit)
    (lane : Int) (st1 : LaneState)
    (hact : st1.activeLanes = bs.st.activeLanes) (h : LanesInv bs) :
    LanesInv
      (let st2 := { st1 with activeLanes := st1.activeLanes.set lane hash };
       let refsAtCommit := (graph.refsByCommit.get hash).getD [];
       let visualRefs := refsAtCommit.map (fun r => toVisualRef r opts);
       let stEdges := processParents hash row lane commit.parents.length
         commit.parents 0 st2;
       let st3 := stEdges.1;
       let newEdges := stEdges.2;
       let edgeIds := newEdges.map (fun e => e.id);
       let children := (graph.children.get hash).getD [];
       let hasChildInSameLane := children.any (fun childHash =>
         match bs.commitByHash.get childHash with
         | some vc => vc.lane == lane
         | none => false);
       let isLaneReservedForParent := commit.parents.any (fun p =>
         st3.laneByCommit.get p == some lane);
       let st4 :=
         if (children.isEmpty || !hasChildInSameLane) &&
             (!isLaneReservedForParent && decide (0 < lane)) then
           freeLane st3 lane
         else st3;
       let currentActiveLanes := sortedLanes st4.activeLanes.keys;
       let newActiveLanesAtRow :=
         bs.activeLanesAtRow.set (row : Int) currentActiveLanes;
       let st5 :=
         if st4.activeLanes.get lane == some hash then
           { st4 with activeLanes := st4.activeLanes.delete lane }
         else st4;
       let visualCommit : VisualCommit :=
         { hash := hash
           row := (row : Int)
           lane := lane
           isMerge := decide (1 < commit.parents.length)
           isBranchTip := !refsAtCommit.isEmpty
           isRoot := commit.parents.isEmpty ||
             commit.parents.all (fun p => (graph.commits.get p).isNone)
           isHead := graph.head == some hash
           refs := visualRefs
           edgeIds := edgeIds }
       { st := st5
         commits := bs.commits ++ [visualCommit]
         edges := bs.edges ++ newEdges
         commitByHash := bs.commitByHash.set hash visualCommit
         commitByRow := bs.commitByRow.set (row : Int) visualCommit
         edgeById := newEdges.foldl (fun m e => m.set e.id e) bs.edgeById
         activeLanesAtRow := newActiveLanesAtRow }) := by
  have hn1 : st1.activeLanes.NodupKeys := by rw [hact]; exact h.1
  have hact3 : (processParents hash row lane commit.parents.length
      commit.parents 0
      { st1 with activeLanes := st1.activeLanes.set lane hash }).1.activeLanes =
      st1.activeLanes.set lane hash :=
    processParents_activeLanes hash row lane commit.parents.length
      commit.parents 0 _
  have hn3 : (processParents hash row lane commit.parents.length
      commit.parents 0
      { st1 with activeLanes := st1.activeLanes.set lane hash }).1.activeLanes.NodupKeys := by
    rw [hact3]
    exact JsMap.nodupKeys_set _ _ _ hn1
  refine ⟨?_, ?_⟩
  · dsimp only
    split <;> (try dsimp only) <;> split <;> (try dsimp only) <;>
      first
        | exact hn3
        | exact JsMap.nodupKeys_delete _ _ hn3
        | (rw [freeLane_activeLanes]; exact JsMap.nodupKeys_delete _ _ hn3)
        | (rw [freeLane_activeLanes];
           exact JsMap.nodupKeys_delete _ _ (JsMap.nodupKeys_delete _ _ hn3))
  · intro r l hget
    dsimp only at hget ⊢
    by_cases hr : r = (row : Int)
    · subst hr
      rw [JsMap.get_set_self] at hget
      obtain rfl := Option.some.inj hget
      refine ⟨?_, ?_⟩
      · refine sortedLanes_pairwise_lt _ ?_
        split
        · rw [freeLane_activeLanes]
          exact JsMap.nodupKeys_delete _ _ hn3
        · exact hn3
      · intro c hc
        rw [JsMap.get_set_self] at hc
        obtain rfl := Option.some.inj hc
        dsimp only
        by_cases hl : (0 : Int) < lane
        · exact Or.inr hl
        · refine Or.inl (mem_sortedLanes _ _ ?_)
          have hdl : decide ((0 : Int) < lane) = false := decide_eq_false hl
          rw [hdl, Bool.and_false, Bool.and_false]
          simp only [Bool.false_eq_true, if_false]
          rw [hact3]
          exact JsMap.mem_keys_set_self _ _ _
    · rw [JsMap.get_set_ne _ _ _ _ hr] at hget
      obtain ⟨hp, hcc⟩ := h.2 r l hget
      refine ⟨hp, ?_⟩
      intro c hc
      rw [JsMap.get_set_ne _ _ _ _ hr] at hc
      exact hcc c hc

/-- `processRow` preserves the C2 invariant. -/
theorem processRow_lanesInv (graph : RepoGraph) (opts : LayoutOptions)
    (row : Nat) (hash : String) (bs : BuildState) (h : LanesInv bs) :
    LanesInv (processRow graph opts row hash bs) := by
  unfold processRow
  cases hcg : graph.commits.get hash with
  | none => exact h
  | some commit =>
    dsimp only
    cases hg : bs.st.laneByCommit.get hash with
    | some l0 =>
      exact lanesInv_step graph opts row hash bs commit l0 bs.st rfl h
    | none =>
      exact lanesInv_step graph opts row hash bs commit
        (allocateLane bs.st).1 (allocateLane bs.st).2
        (allocateLane_activeLanes bs.st) h

/-- The row loop preserves the C2 invariant. -/
theorem buildLoop_lanesInv (graph : RepoGraph) (opts : LayoutOptions) :
    ∀ (hashes : List String) (row : Nat) (bs : BuildState),
      LanesInv bs → LanesInv (buildLoop graph opts hashes row bs) := by
  intro hashes
  induction hashes with
  | nil => intro row bs h; exact h
  | cons hh rest ih =>
    intro row bs h
    exact ih (row + 1) _ (processRow_lanesInv graph opts row hh bs h)

theorem lanesInv_initial : LanesInv initialBuildState := by
  refine ⟨JsMap.nodupKeys_empty, ?_⟩
  intro r l hget
  simp [initialBuildState] at hget

/-! ### Claims C3 and C9: per-edge invariants of the row loop -/

/-- Every first-pass edge starts at a loaded commit, keeps the `-1` target
row placeholder, has a nonnegative source row, a parent index inside its
commit's parent list, and the merge/fork/straight type rule. -/
def EdgesInv (graph : RepoGraph) (bs : BuildState) : Prop :=
  ∀ e ∈ bs.edges, e.toRow = -1 ∧ 0 ≤ e.fromRow ∧
    ∃ commit, graph.commits.get e.fromHash = some commit ∧
      e.parentIndex < commit.parents.length ∧
      e.type = (if 1 < commit.parents.length ∧ 0 < e.parentIndex then
          EdgeType.merge
        else if e.fromLane ≠ e.toLane then EdgeType.fork
        else EdgeType.straight)

/-- `processRow` preserves the C9 per-edge invariant. -/
theorem processRow_edgesInv (graph : RepoGraph) (opts : LayoutOptions)
    (row : Nat) (hash : String) (bs : BuildState)
    (h : EdgesInv graph bs) :
    EdgesInv graph (processRow graph opts row hash bs) := by
  unfold processRow
  cases hcg : graph.commits.get hash with
  | none => exact h
  | some commit =>
    dsimp only
    intro e he
    dsimp only at he
    rcases List.mem_append.mp he with hold | hnew
    · exact h e hold
    · obtain ⟨h1, h2, h3, _, _, h6, h7⟩ :=
        processParents_mem_spec hash row _ commit.parents.length
          commit.parents 0 _ e hnew
      exact ⟨h3, by rw [h2]; exact Int.natCast_nonneg row,
        commit, by rw [h1]; exact hcg, by omega, h7⟩

/-- The row loop preserves the C9 per-edge invariant. -/
theorem buildLoop_edgesInv (graph : RepoGraph) (opts : LayoutOptions) :
    ∀ (hashes : List String) (row : Nat) (bs : BuildState),
      EdgesInv graph bs → EdgesInv graph (buildLoop graph opts hashes row bs) := by
  intro hashes
  induction hashes with
  | nil => intro row bs h; exact h
  | cons hh rest ih =>
    intro row bs h
    exact ih (row + 1) _ (processRow_edgesInv graph opts row hh bs h)

theorem edgesInv_initial (graph : RepoGraph) :
    EdgesInv graph initialBuildState := by
  intro e he
  simp [initialBuildState] at he

/-- C3 bookkeeping: every recorded edge starts at an already-processed hash,
and every emitted commit is for a processed hash, is loaded, and has exactly
`k - 1` merge-typed outgoing edges among all recorded edges. -/
def HashesInv (graph : RepoGraph) (done : List String) (bs : BuildState) :
    Prop :=
  (∀ e ∈ bs.edges, e.fromHash ∈ done) ∧
  (∀ c ∈ bs.commits, c.hash ∈ done ∧
    ∃ commit, graph.commits.get c.hash = some commit ∧
      bs.edges.countP (fun e =>
          e.fromHash == c.hash && decide (e.type = EdgeType.merge)) =
        commit.parents.length - 1)

/-- `processRow` on a fresh hash extends the C3 bookkeeping invariant. -/
theorem processRow_hashesInv (graph : RepoGraph) (opts : LayoutOptions)
    (row : Nat) (hash : String) (bs : BuildState) (done : List String)
    (h : HashesInv graph done bs) (hfresh : hash ∉ done) :
    HashesInv graph (done ++ [hash]) (processRow graph opts row hash bs) := by
  unfold processRow
  cases hcg : graph.commits.get hash with
  | none =>
    refine ⟨fun e he => List.mem_append_left _ (h.1 e he), fun c hc => ?_⟩
    obtain ⟨hd, commit, hget, hcount⟩ := h.2 c hc
    exact ⟨List.mem_append_left _ hd, commit, hget, hcount⟩
  | some commit =>
    dsimp only
    constructor
    · intro e he
      dsimp only at he
      rcases List.mem_append.mp he with hold | hnew
      · exact List.mem_append_left _ (h.1 e hold)
      · obtain ⟨h1, _⟩ :=
          processParents_mem_spec hash row _ commit.parents.length
            commit.parents 0 _ e hnew
        rw [h1]
        exact List.mem_append_right _ (List.mem_singleton.mpr rfl)
    · intro c hc
      dsimp only at hc
      rcases List.mem_append.mp hc with hold | hnewc
      · obtain ⟨hd, commit2, hget2, hcount2⟩ := h.2 c hold
        refine ⟨List.mem_append_left _ hd, commit2, hget2, ?_⟩
        rw [List.countP_append]
        have hz : ∀ (lane : Int) (st : LaneState),
            (processParents hash row lane commit.parents.length
              commit.parents 0 st).2.countP (fun e =>
                e.fromHash == c.hash && decide (e.type = EdgeType.merge)) = 0 := by
          intro lane st
          rw [List.countP_eq_zero]
          intro e hnew habs
          obtain ⟨h1, _⟩ :=
            processParents_mem_spec hash row lane commit.parents.length
              commit.parents 0 st e hnew
          have heq : e.fromHash = c.hash := by
            have := ((Bool.and_eq_true _ _).mp habs).1
            simpa using this
          rw [h1] at heq
          exact hfresh (heq ▸ hd)
        rw [hz, Nat.add_zero]
        exact hcount2
      · have hcv := List.mem_singleton.mp hnewc
        subst hcv
        dsimp only
        refine ⟨List.mem_append_right _ (List.mem_singleton.mpr rfl),
          commit, hcg, ?_⟩
        rw [List.countP_append]
        have hz : bs.edges.countP (fun e =>
            e.fromHash == hash && decide (e.type = EdgeType.merge)) = 0 := by
          rw [List.countP_eq_zero]
          intro e hold habs
          have heq : e.fromHash = hash := by
            have := ((Bool.and_eq_true _ _).mp habs).1
            simpa using this
          exact hfresh (heq ▸ h.1 e hold)
        have hc2 : ∀ (lane : Int) (st : LaneState),
            (processParents hash row lane commit.parents.length
              commit.parents 0 st).2.countP (fun e =>
                e.fromHash == hash && decide (e.type = EdgeType.merge)) =
              commit.parents.length - 1 := by
          intro lane st
          rw [List.countP_congr, processParents_countP_merge,
            countP_range_merge]
          intro e hnew
          obtain ⟨h1, _⟩ :=
            processParents_mem_spec hash row lane commit.parents.length
              commit.parents 0 st e hnew
          rw [h1]
          simp
        rw [hz, hc2, Nat.zero_add]

/-- The row loop over pairwise-distinct fresh hashes extends the C3
bookkeeping invariant. -/
theorem buildLoop_hashesInv (graph : RepoGraph) (opts : LayoutOptions) :
    ∀ (hashes : List String) (row : Nat) (bs : BuildState)
      (done : List String),
      HashesInv graph done bs → (∀ x ∈ hashes, x ∉ done) → hashes.Nodup →
      HashesInv graph (done ++ hashes)
        (buildLoop graph opts hashes row bs) := by
  intro hashes
  induction hashes with
  | nil =>
    intro row bs done h _ _
    rw [List.append_nil]
    exact h
  | cons hh rest ih =>
    intro row bs done h hfresh hnd
    have hstep := processRow_hashesInv graph opts row hh bs done h
      (hfresh hh (List.mem_cons_self hh rest))
    have hfresh2 : ∀ x ∈ rest, x ∉ done ++ [hh] := by
      intro x hx hmem
      rcases List.mem_append.mp hmem with hm | hm
      · exact hfresh x (List.mem_cons_of_mem hh hx) hm
      · exact (List.nodup_cons.mp hnd).1 (List.mem_singleton.mp hm ▸ hx)
    have := ih (row + 1) (processRow graph opts row hh bs) (done ++ [hh])
      hstep hfresh2 (List.nodup_cons.mp hnd).2
    rw [List.append_assoc] at this
    exact this

theorem hashesInv_initial (graph : RepoGraph) :
    HashesInv graph [] initialBuildState := by
  constructor
  · intro e he
    simp [initialBuildState] at he
  · intro c hc
    simp [initialBuildState] at hc

/-- C2: in every visual graph, every recorded `activeLanesAtRow` snapshot is
a strictly ascending lane list, and it contains the lane of the commit
placed at that row whenever that lane is not positive; the spec's
unconditional containment claim fails for positive lanes, which
`createVisualGraph` can free (and drop from the active set) just before
taking the snapshot — see the counterexample. -/
theorem c2_active_lanes (graph : RepoGraph) (opts : LayoutOptions)
    (r : Int) (l : List Int)
    (h : (createVisualGraph graph opts).activeLanesAtRow.get r = some l) :
    l.Pairwise (· < ·) ∧
    ∀ c, (createVisualGraph graph opts).commitByRow.get r = some c →
      c.lane ∈ l ∨ 0 < c.lane := by
  have hinv := buildLoop_lanesInv graph opts graph.topologicalOrder.reverse 0
    initialBuildState lanesInv_initial
  unfold createVisualGraph at h ⊢
  dsimp only at h ⊢
  exact hinv.2 r l h

/-- Two root commits in separate lanes: the second commit sits at row 1 in
lane 1, yet lane 1 is freed before the snapshot, so `activeLanesAtRow[1]`
is empty and does not contain the commit's lane. -/
def c2Graph : RepoGraph :=
  { commits := ⟨[("a", ⟨[]⟩), ("b", ⟨[]⟩)]⟩
    children := JsMap.empty
    refsByCommit := JsMap.empty
    head := none
    topologicalOrder := ["b", "a"] }

/-- C2, counterexample: the commit at row 1 of `c2Graph` has lane 1, but the
recorded snapshot for row 1 is the empty list, so `activeLanesAtRow[r]` does
not always contain the lane of the commit at row `r`. -/
theorem c2_active_lanes_counterexample :
    (createVisualGraph c2Graph {}).activeLanesAtRow.get 1 = some [] ∧
    ((createVisualGraph c2Graph {}).commitByRow.get 1).map
      (fun c => c.lane) = some 1 :=
  ⟨by decide, by decide⟩

/-- The visual commit `createVisualGraph` places at row 0 of `c2Graph`. -/
def c2CommitA : VisualCommit :=
  { hash := "a", row := 0, lane := 0, isMerge := false, isBranchTip := false,
    isRoot := true, isHead := false, refs := [], edgeIds := [] }

/-- Witness for `c2_active_lanes` at row 0 of the concrete graph. -/
theorem c2_active_lanes_witness :
    ([0] : List Int).Pairwise (· < ·) ∧
    (c2CommitA.lane ∈ ([0] : List Int) ∨ 0 < c2CommitA.lane) := by
  have h := c2_active_lanes c2Graph {} 0 [0] (by decide)
  exact ⟨h.1, h.2 c2CommitA (by decide)⟩

/-- C3: in every visual graph built from a duplicate-free topological order,
every edge's type follows the merge/fork/straight rule (merge exactly for a
later parent of a multi-parent commit, else fork on a lane change, else
straight), and every placed commit with `k` parents has exactly `k - 1`
merge-typed outgoing edges. -/
theorem c3_edge_types (graph : RepoGraph) (opts : LayoutOptions)
    (hnd : graph.topologicalOrder.Nodup) :
    (∀ e ∈ (createVisualGraph graph opts).edges, ∃ commit,
        graph.commits.get e.fromHash = some commit ∧
        e.parentIndex < commit.parents.length ∧
        e.type = (if 1 < commit.parents.length ∧ 0 < e.parentIndex then
            EdgeType.merge
          else if e.fromLane ≠ e.toLane then EdgeType.fork
          else EdgeType.straight)) ∧
    (∀ c ∈ (createVisualGraph graph opts).commits, ∀ commit,
        graph.commits.get c.hash = some commit →
        (createVisualGraph graph opts).edges.countP (fun e =>
            e.fromHash == c.hash && decide (e.type = EdgeType.merge)) =
          commit.parents.length - 1) := by
  have hedges := buildLoop_edgesInv graph opts graph.topologicalOrder.reverse
    0 initialBuildState (edgesInv_initial graph)
  have hhashes := buildLoop_hashesInv graph opts graph.topologicalOrder.reverse
    0 initialBuildState [] (hashesInv_initial graph)
    (fun x _ hx => (List.not_mem_nil x) hx) (List.nodup_reverse.mpr hnd)
  unfold createVisualGraph
  dsimp only
  constructor
  · intro e he
    rcases List.mem_map.mp he with ⟨e0, he0, rfl⟩
    obtain ⟨_, _, commit, hget, hlt, htype⟩ := hedges e0 he0
    obtain ⟨t, heq⟩ := fillToRow_eta _ e0
    rw [heq]
    dsimp only
    exact ⟨commit, hget, hlt, htype⟩
  · intro c hcm commit hget
    obtain ⟨_, commit2, hget2, hcount⟩ := hhashes.2 c hcm
    rw [hget] at hget2
    obtain rfl := Option.some.inj hget2
    rw [List.countP_map, List.countP_congr]
    · exact hcount
    · intro e0 he0
      obtain ⟨t, heq⟩ := fillToRow_eta _ e0
      simp only [Function.comp_apply]
      rw [heq]

/-- A merge commit `m` with parents `p` and `q`, placed at row 0. -/
def c3Graph : RepoGraph :=
  { commits := ⟨[("m", ⟨["p", "q"]⟩), ("p", ⟨[]⟩), ("q", ⟨[]⟩)]⟩
    children := ⟨[("p", ["m"]), ("q", ["m"])]⟩
    refsByCommit := JsMap.empty
    head := none
    topologicalOrder := ["q", "p", "m"] }

/-- The visual commit `createVisualGraph` places at row 0 of `c3Graph`. -/
def c3CommitM : VisualCommit :=
  { hash := "m", row := 0, lane := 0, isMerge := true, isBranchTip := false,
    isRoot := false, isHead := false, refs := [],
    edgeIds := ["m-p-0", "m-q-1"] }

/-- Witness for `c3_edge_types`: the two-parent commit `m` has exactly one
merge-typed outgoing edge. -/
theorem c3_edge_types_witness :
    (createVisualGraph c3Graph {}).edges.countP (fun e =>
        e.fromHash == c3CommitM.hash && decide (e.type = EdgeType.merge)) =
      1 :=
  (c3_edge_types c3Graph {} (by decide)).2 c3CommitM (by decide)
    ⟨["p", "q"]⟩ (by decide)

theorem fillToRow_toHash (m : JsMap String VisualCommit) (e : VisualEdge) :
    (fillToRow m e).toHash = e.toHash := by
  obtain ⟨t, heq⟩ := fillToRow_eta m e
  rw [heq]

theorem fillToRow_of_get_none (m : JsMap String VisualCommit) (e : VisualEdge)
    (h : m.get e.toHash = none) : fillToRow m e = e := by
  unfold fillToRow
  rw [h]

/-- Dangling edges of a finished visual graph keep `toRow = -1` and start at
a nonnegative row. -/
theorem createVisualGraph_dangling (graph : RepoGraph)
    (opts : LayoutOptions) :
    ∀ e ∈ (createVisualGraph graph opts).edges,
      (createVisualGraph graph opts).commitByHash.get e.toHash = none →
      e.toRow = -1 ∧ 0 ≤ e.fromRow := by
  have hedges := buildLoop_edgesInv graph opts graph.topologicalOrder.reverse
    0 initialBuildState (edgesInv_initial graph)
  unfold createVisualGraph
  dsimp only
  intro e he hnone
  rcases List.mem_map.mp he with ⟨e0, he0, rfl⟩
  rw [fillToRow_toHash] at hnone
  rw [fillToRow_of_get_none _ _ hnone]
  obtain ⟨ht, hfr, _⟩ := hedges e0 he0
  exact ⟨ht, hfr⟩

/-- C9: in a visual graph with pairwise-distinct edge ids, an edge whose
target commit is absent from the commit map keeps `toRow = -1`, and
`getVisibleEdges start end` returns it exactly when `start ≤ fromRow` and
`end ≥ -1` — the dangling edge spans rows `[-1, fromRow]`. -/
theorem c9_dangling_edges (graph : RepoGraph) (opts : LayoutOptions)
    (s t : Int)
    (hids : ((createVisualGraph graph opts).edges.map (fun e => e.id)).Nodup) :
    ∀ e ∈ (createVisualGraph graph opts).edges,
      (createVisualGraph graph opts).commitByHash.get e.toHash = none →
      e.toRow = -1 ∧
        (e ∈ getVisibleEdges (createVisualGraph graph opts) s t ↔
          s ≤ e.fromRow ∧ -1 ≤ t) := by
  intro e he hnone
  obtain ⟨ht, hfr⟩ := createVisualGraph_dangling graph opts e he hnone
  refine ⟨ht, ?_⟩
  rw [getVisibleEdges_eq_filter _ _ _ hids, List.mem_filter]
  have h1 : max e.fromRow e.toRow = e.fromRow := by
    rw [ht]; exact max_eq_left (by omega)
  have h2 : min e.fromRow e.toRow = (-1 : Int) := by
    rw [ht]; exact min_eq_right (by omega)
  constructor
  · rintro ⟨_, hp⟩
    have hc := of_decide_eq_true hp
    rw [h1, h2] at hc
    exact hc
  · rintro ⟨hs, hts⟩
    refine ⟨he, decide_eq_true ?_⟩
    rw [h1, h2]
    exact ⟨hs, hts⟩

/-- One commit whose only parent `zz` is not in the repository. -/
def c9Graph : RepoGraph :=
  { commits := ⟨[("a", ⟨["zz"]⟩)]⟩
    children := JsMap.empty
    refsByCommit := JsMap.empty
    head := none
    topologicalOrder := ["a"] }

/-- The dangling edge `createVisualGraph` builds for `c9Graph`. -/
def c9e : VisualEdge :=
  { id := "a-zz-0", fromHash := "a", toHash := "zz", fromRow := 0,
    fromLane := 0, toRow := -1, toLane := 0, type := EdgeType.straight,
    parentIndex := 0 }

/-- Witness for `c9_dangling_edges` on the concrete dangling edge. -/
theorem c9_dangling_edges_witness :
    c9e.toRow = -1 ∧
      (c9e ∈ getVisibleEdges (createVisualGraph c9Graph {}) 0 5 ↔
        (0 : Int) ≤ c9e.fromRow ∧ (-1 : Int) ≤ 5) :=
  c9_dangling_edges c9Graph {} 0 5 (by decide) c9e (by decide) (by decide)

end RepoLens
